import Mathlib

/-!
# Verification of the DAGG directed-graph engine

A shallow embedding of the `dag` package (streemtech/DAGG): a generic
directed graph keyed by string hash codes, with Tarjan's strongly connected
components, and the acyclic layer (root lookup, validation, reachability,
transitive reduction, sorted reverse depth-first walk).

Vertices in the source are opaque caller values implementing `Hashable`
(a `Hashcode() string` method).  Go compares interface values with `==`
(value identity), which is independent of the hash code, so a vertex is
modelled as a record of an identity tag `id` (standing for the Go value
identity), the hash code `hash`, and the display `name` used by
`VertexName` (the source's `NamedVertex`/`fmt.Stringer` fallback chain).

The source's `Set` type (file `set.go`, not part of the sources at hand) is
a Go `map[string]T` keyed by hash code; it is modelled as an association
list in insertion order, with `Add` overwriting the value stored at an
existing key, matching the `s[hashcode(v)] = v` map-write contract described
in the specification ("Add(v) is idempotent by hash key; Delete(v) removes
by hash key and is a no-op if absent; Include(v) tests membership by hash
key").  Go map iteration is modelled as iteration in insertion order.
-/

namespace Dag

/-- A vertex: `id` models Go value identity of the caller's `Hashable`
value (two vertices are `==` in Go iff they are the same record here),
`hash` is the string returned by `Hashcode()`, and `name` is the display
name returned by `VertexName`. -/
structure Vertex where
  id : Nat
  hash : String
  name : String
deriving DecidableEq, Repr

/-- `Hashcode` of a vertex (the caller-supplied hash key). -/
def Vertex.Hashcode (v : Vertex) : String := v.hash

/-- An edge records its source and target vertex, as in `basicEdge` of
`edge.go` (fields `S`, `T`). -/
structure Edge where
  S : Vertex
  T : Vertex
deriving DecidableEq, Repr

/-- `basicEdge.Hashcode` from `edge.go`: `fmt.Sprintf("%s-%s", ...)`,
the source hash code, a `"-"` separator, and the target hash code. -/
def Edge.Hashcode (e : Edge) : String := e.S.hash ++ "-" ++ e.T.hash

/-- `BasicEdge` from `edge.go`: tracks the source and target as given. -/
def BasicEdge (source target : Vertex) : Edge := ⟨source, target⟩

/-- Modelled from the spec: (`set.go` is missing from the sources) the
"Keyed Set" of the package, a `map[string]T` keyed by hash code, in
insertion order, with `Add` idempotent by hash key (the Go map write
overwrites the stored value). -/
abbrev Set (α : Type) : Type := List (String × α)

/-- Membership test by hash key. -/
def Set.Include (s : Set α) (k : String) : Bool :=
  s.any (fun p => p.1 == k)

/-- Insert by hash key; overwrites the value stored at an existing key
(the Go map write `s[k] = v`), otherwise appends. -/
def Set.Add (s : Set α) (k : String) (v : α) : Set α :=
  if Set.Include s k then s.map (fun p => if p.1 == k then (k, v) else p)
  else s ++ [(k, v)]

/-- Delete by hash key; a no-op if the key is absent. -/
def Set.Delete (s : Set α) (k : String) : Set α :=
  s.filter (fun p => !(p.1 == k))

/-- The stored values, in iteration order. -/
def Set.Values (s : Set α) : List α := s.map (fun p => p.2)

/-- `Set.Len`. -/
def Set.Len (s : Set α) : Nat := s.length

/-- Go map read `m[k]` with a default for a missing key. -/
def Set.getD (s : Set α) (k : String) (d : α) : α :=
  match s.find? (fun p => p.1 == k) with
  | some p => p.2
  | none => d

/-- The `Graph` record of `graph.go`: a vertex set, an edge set, and the
two adjacency indices `downEdges` / `upEdges`, each a map from a vertex
hash code to a keyed set of adjacent vertices.  The Go zero value plus
`init()` is `Graph.empty`. -/
structure Graph where
  vertices : Set Vertex
  edges : Set Edge
  downEdges : Set (Set Vertex)
  upEdges : Set (Set Vertex)
deriving DecidableEq, Repr

/-- The freshly initialised graph (`var g Graph` + `g.init()`). -/
def Graph.empty : Graph := ⟨[], [], [], []⟩

/-- `Graph.Vertices`: the list of all vertices. -/
def Graph.Vertices (g : Graph) : List Vertex := Set.Values g.vertices

/-- `Graph.Edges`: the list of all edges. -/
def Graph.Edges (g : Graph) : List Edge := Set.Values g.edges

/-- `Graph.HasVertex`: membership of the vertex set, by hash key. -/
def Graph.HasVertex (g : Graph) (v : Vertex) : Bool :=
  Set.Include g.vertices v.hash

/-- `Graph.HasEdge`: membership of the edge set, by edge hash code. -/
def Graph.HasEdge (g : Graph) (e : Edge) : Bool :=
  Set.Include g.edges (Edge.Hashcode e)

/-- `Graph.Add`: inserts a vertex (idempotent by hash key). -/
def Graph.Add (g : Graph) (v : Vertex) : Graph :=
  { g with vertices := Set.Add g.vertices v.hash v }

/-- `Graph.downEdgesNoCopy`: the live out-adjacency set of `v`
(`g.downEdges[v.Hashcode()]`; a missing key reads as the empty set). -/
def Graph.downEdgesNoCopy (g : Graph) (v : Vertex) : Set Vertex :=
  Set.getD g.downEdges v.hash []

/-- `Graph.upEdgesNoCopy`: the live in-adjacency set of `v`. -/
def Graph.upEdgesNoCopy (g : Graph) (v : Vertex) : Set Vertex :=
  Set.getD g.upEdges v.hash []

/-- Helper for `RemoveEdge`: `if s, ok := m[k]; ok { s.Delete(dk) }` —
delete `dk` from the inner set stored at `k`, if any. -/
def adjDeleteFrom (m : Set (Set Vertex)) (k dk : String) : Set (Set Vertex) :=
  m.map (fun p => if p.1 == k then (p.1, Set.Delete p.2 dk) else p)

/-- Helper for `Connect`: `s, ok := m[k]; if !ok { s = make(...); m[k] = s };
s.Add(v)` — add `v` to the inner set stored at `k`, creating it if absent. -/
def adjAddTo (m : Set (Set Vertex)) (k : String) (v : Vertex) : Set (Set Vertex) :=
  if Set.Include m k then
    m.map (fun p => if p.1 == k then (p.1, Set.Add p.2 v.hash v) else p)
  else m ++ [(k, Set.Add [] v.hash v)]

/-- `Graph.RemoveEdge`: deletes the edge from the edge set (by its hash
code) and from both adjacency indices. -/
def Graph.RemoveEdge (g : Graph) (edge : Edge) : Graph :=
  { g with
    edges := Set.Delete g.edges (Edge.Hashcode edge),
    downEdges := adjDeleteFrom g.downEdges edge.S.hash edge.T.hash,
    upEdges := adjDeleteFrom g.upEdges edge.T.hash edge.S.hash }

/-- `Graph.Connect`: no-op if `downEdges[source]` already contains the
target's hash key; otherwise inserts the edge into the edge set and both
adjacency indices. -/
def Graph.Connect (g : Graph) (edge : Edge) : Graph :=
  let sourceCode := edge.S.hash
  let targetCode := edge.T.hash
  if Set.Include (Set.getD g.downEdges sourceCode []) targetCode then g
  else
    { g with
      edges := Set.Add g.edges (Edge.Hashcode edge) edge,
      downEdges := adjAddTo g.downEdges sourceCode edge.T,
      upEdges := adjAddTo g.upEdges targetCode edge.S }

/-- `Graph.Remove`: deletes the vertex, then cascades `RemoveEdge` over
the out-adjacency of `v` and then over its (remaining) in-adjacency, as
the two `range` loops of the source do (deleting the entry currently
visited is safe in a Go map range, so each loop acts on a snapshot of the
set it ranges over). -/
def Graph.Remove (g : Graph) (v : Vertex) : Graph :=
  let g0 : Graph := { g with vertices := Set.Delete g.vertices v.hash }
  let g1 := (Set.Values (Graph.downEdgesNoCopy g0 v)).foldl
    (fun h target => Graph.RemoveEdge h (BasicEdge v target)) g0
  (Set.Values (Graph.upEdgesNoCopy g1 v)).foldl
    (fun h source => Graph.RemoveEdge h (BasicEdge source v)) g1

/-- `Graph.Replace`: `false` if the original is not a member; a no-op
returning `true` when original and replacement are the same Go value;
otherwise adds the replacement, rewires all incident edges, and removes
the original. -/
def Graph.Replace (g : Graph) (original replacement : Vertex) : Graph × Bool :=
  if !(Set.Include g.vertices original.hash) then (g, false)
  else if original = replacement then (g, true)
  else
    let g1 := Graph.Add g replacement
    let g2 := (Set.Values (Graph.downEdgesNoCopy g1 original)).foldl
      (fun h target => Graph.Connect h (BasicEdge replacement target)) g1
    let g3 := (Set.Values (Graph.upEdgesNoCopy g2 original)).foldl
      (fun h source => Graph.Connect h (BasicEdge source replacement)) g2
    (Graph.Remove g3 original, true)

/-- `VertexName` from `graph.go`: the display name of a vertex
(`NamedVertex.Name()`, else `fmt.Stringer`, else `%v`); all three cases
are the `name` field of the modelled vertex. -/
def VertexName (v : Vertex) : String := v.name

/-- The test helper type `myint`: hash code and display name are the
decimal rendering of the integer, and Go `==` on `myint` is equality of
the integer, so the identity tag is the integer itself. -/
def myint (n : Nat) : Vertex := ⟨n, toString n, toString n⟩

/-! ## SCC engine (tarjan.go)

The accounting structure keys `VertexIndex` by the `Vertex` interface
value itself (`map[Vertex[T]]int`), and `inStack` compares stack entries
with Go `==`; both are modelled by full `Vertex` equality (identity tag
included), not by hash key. -/

/-- A read of the Go map `acct.VertexIndex[v]` (missing keys read as 0). -/
def vertexIndexGet (m : List (Vertex × Nat)) (v : Vertex) : Nat :=
  match m.find? (fun p => p.1 == v) with
  | some p => p.2
  | none => 0

/-- The Go map write `acct.VertexIndex[v] = i`. -/
def vertexIndexSet (m : List (Vertex × Nat)) (v : Vertex) (i : Nat) :
    List (Vertex × Nat) :=
  if m.any (fun p => p.1 == v) then
    m.map (fun p => if p.1 == v then (p.1, i) else p)
  else m ++ [(v, i)]

/-- `sccAcct` from `tarjan.go`: accounting information for
`StronglyConnected`.  The stack is kept with its top at the head. -/
structure sccAcct where
  NextIndex : Nat
  VertexIndex : List (Vertex × Nat)
  Stack : List Vertex
  SCC : List (List Vertex)
deriving DecidableEq, Repr

/-- `sccAcct.visit`: assigns the next index to `v` and pushes it. -/
def sccAcct.visit (s : sccAcct) (v : Vertex) : sccAcct × Nat :=
  let idx := s.NextIndex
  ({ s with
      VertexIndex := vertexIndexSet s.VertexIndex v idx,
      NextIndex := s.NextIndex + 1,
      Stack := v :: s.Stack }, idx)

/-- `sccAcct.inStack`: linear scan of the stack with Go `==`. -/
def sccAcct.inStack (s : sccAcct) (needle : Vertex) : Bool :=
  s.Stack.any (fun n => n == needle)

/-- The source's pop-until loop (`for { v2 := acct.pop(); ... if v2 == v
break }`): returns the popped vertices in pop order (ending with the
first stack entry equal to `v`) and the remaining stack. -/
def popUntil (stack : List Vertex) (v : Vertex) : List Vertex × List Vertex :=
  match stack with
  | [] => ([], [])
  | x :: rest =>
    if x = v then ([x], rest)
    else
      let (p, r) := popUntil rest v
      (x :: p, r)

/-- The recursive `stronglyConnected` of `tarjan.go`, with explicit fuel
bounding the recursion depth (each recursive call visits a vertex whose
`VertexIndex` entry was 0, so any fuel at least the number of distinct
vertex values reachable through `downEdges` makes the fuel branch dead). -/
def stronglyConnectedGo : Nat → sccAcct → Graph → Vertex → sccAcct × Nat
  | 0, acct, _, _ => (acct, 0)
  | fuel + 1, acct, g, v =>
    let (acct1, index) := sccAcct.visit acct v
    let step := fun (p : sccAcct × Nat) (target : Vertex) =>
      let targetIdx := vertexIndexGet p.1.VertexIndex target
      if targetIdx == 0 then
        let (a, m) := stronglyConnectedGo fuel p.1 g target
        (a, min p.2 m)
      else if sccAcct.inStack p.1 target then (p.1, min p.2 targetIdx)
      else p
    let (acct2, minIdx) :=
      (Set.Values (Graph.downEdgesNoCopy g v)).foldl step (acct1, index)
    if index == minIdx then
      let (scc, rest) := popUntil acct2.Stack v
      ({ acct2 with Stack := rest, SCC := acct2.SCC ++ [scc] }, minIdx)
    else (acct2, minIdx)

/-- Fuel sufficient for every run: one unit per vertex of the vertex set
plus one per adjacency entry, plus one. -/
def sccFuel (g : Graph) : Nat :=
  (Graph.Vertices g).length +
    (Set.Values g.downEdges).foldl (fun n s => n + s.length) 0 + 1

/-- `StronglyConnected` from `tarjan.go`: explores each vertex of the
vertex set whose index is still 0 and collects the components. -/
def StronglyConnected (g : Graph) : List (List Vertex) :=
  let init : sccAcct := ⟨1, [], [], []⟩
  ((Graph.Vertices g).foldl
    (fun acct v =>
      if vertexIndexGet acct.VertexIndex v == 0 then
        (stronglyConnectedGo (sccFuel g) acct g v).1
      else acct)
    init).SCC

/-! ## Sorting helper

`sort.Strings` / `sort.Sort(byVertexName(...))` sort ascending by the
byte-wise lexicographic string order; modelled by insertion sort with a
character-wise comparator (identical on the ASCII data involved). -/

/-- Byte-wise lexicographic `≤` on character lists. -/
def charListLe : List Char → List Char → Bool
  | [], _ => true
  | _ :: _, [] => false
  | a :: as, b :: bs =>
    if a.toNat < b.toNat then true
    else if b.toNat < a.toNat then false
    else charListLe as bs

/-- Lexicographic `≤` on strings. -/
def strLe (a b : String) : Bool := charListLe a.data b.data

/-- Insert into a sorted list. -/
def insertSorted (le : α → α → Bool) (x : α) : List α → List α
  | [] => [x]
  | y :: ys => if le x y then x :: y :: ys else y :: insertSorted le x ys

/-- Insertion sort (stable), ascending by `le`. -/
def sortBy (le : α → α → Bool) (l : List α) : List α :=
  l.foldr (insertSorted le) []

/-! ## Acyclic layer

The `AcyclicGraph` methods (`Root`, `Validate`, `Ancestors`,
`Descendents`, `TransitiveReduction`, `SortedReverseDepthFirstWalk`) live
in the repository file `dag.go`, which is not among the sources at hand —
only their tests are.  They are modelled from the specification below,
with the traversal direction of `Ancestors`/`Descendents` fixed by the
in-repository tests. -/

/-- `AcyclicGraph` has the same storage as `Graph`. -/
abbrev AcyclicGraph := Graph

/-- Modelled from the spec: the breadth/depth-first closure over one
adjacency index ("the set of vertices reachable by repeatedly following
up-edges / down-edges"), as a keyed set.  `adj` reads the adjacency set
of a hash key; the fuel bounds the number of loop iterations and is
ample at every use below. -/
def walkClosure (adj : String → Set Vertex) :
    Nat → List Vertex → Set Vertex → Set Vertex
  | 0, _, acc => acc
  | _ + 1, [], acc => acc
  | fuel + 1, v :: rest, acc =>
    if Set.Include acc v.hash then walkClosure adj fuel rest acc
    else
      walkClosure adj fuel (rest ++ Set.Values (adj v.hash))
        (Set.Add acc v.hash v)

/-- Ample fuel for the closure walks of one graph. -/
def walkFuel (g : Graph) : Nat :=
  2 * ((Set.Values g.downEdges).foldl (fun n s => n + s.length) 0 +
       (Set.Values g.upEdges).foldl (fun n s => n + s.length) 0) +
    (Graph.Vertices g).length + g.edges.length + 1

/-- Modelled from the spec: (`dag.go` is missing from the sources) `Ancestors(v)` computes
the closure from the adjacency of `v`, excluding `v` itself.  The
in-repository test `TestAcyclicGraphAncestors` fixes its direction: it
follows the *down* (out) edges — in the chain `0→1→…→5` it expects
`Ancestors(2)` to be `{3,4,5}`. -/
def AcyclicGraph.Ancestors (g : AcyclicGraph) (v : Vertex) : Set Vertex :=
  walkClosure (fun h => Set.getD g.downEdges h []) (walkFuel g)
    (Set.Values (Graph.downEdgesNoCopy g v)) []

/-- Modelled from the spec: (`dag.go` is missing from the sources) `Descendents(v)` computes
the closure in the opposite direction to `Ancestors`, excluding `v`
itself.  The in-repository test `TestAcyclicGraphDescendents` fixes its
direction: it follows the *up* (in) edges — in the chain `0→1→…→5` it
expects `Descendents(2)` to be `{0,1}`. -/
def AcyclicGraph.Descendents (g : AcyclicGraph) (v : Vertex) : Set Vertex :=
  walkClosure (fun h => Set.getD g.upEdges h []) (walkFuel g)
    (Set.Values (Graph.upEdgesNoCopy g v)) []

/-- The failure conditions of `Root`. -/
inductive RootErr where
  | noRoot : RootErr
  | multipleRoots : RootErr
deriving DecidableEq, Repr

/-- Modelled from the spec: (`dag.go` is missing from the sources) the vertices with an
empty up-set, in vertex-set iteration order. -/
def AcyclicGraph.Roots (g : AcyclicGraph) : List Vertex :=
  (Graph.Vertices g).filter
    (fun v => Set.Len (Graph.upEdgesNoCopy g v) == 0)

/-- Modelled from the spec: (`dag.go` is missing from the sources) `Root()` returns the
unique vertex with no incoming edges, and fails with a "no root" /
"multiple roots" condition when zero or more than one such vertex
exists. -/
def AcyclicGraph.Root (g : AcyclicGraph) : Except RootErr Vertex :=
  match AcyclicGraph.Roots g with
  | [r] => Except.ok r
  | [] => Except.error RootErr.noRoot
  | _ => Except.error RootErr.multipleRoots

/-- The cycle-detected condition reported by `Validate`: the offending
multi-vertex components and the self-loop edges. -/
structure ValidateErr where
  cycles : List (List Vertex)
  selfLoops : List Edge
deriving DecidableEq, Repr

/-- Modelled from the spec: (`dag.go` is missing from the sources) `Validate()` runs the SCC
engine and fails — naming the offending components and self-looped
vertices — iff some strongly connected component has more than one
vertex or some edge is a self-loop (source and target the same Go
value); `none` is the nil error. -/
def AcyclicGraph.Validate (g : AcyclicGraph) : Option ValidateErr :=
  if ((StronglyConnected g).filter (fun c => 1 < c.length)).isEmpty &&
      ((Graph.Edges g).filter (fun e => e.S == e.T)).isEmpty then none
  else some ⟨(StronglyConnected g).filter (fun c => 1 < c.length),
    (Graph.Edges g).filter (fun e => e.S == e.T)⟩

/-- Modelled from the spec: (`dag.go` is missing from the sources) `TransitiveReduction()`
removes every edge `(u,v)` for which an alternate directed path of
length ≥ 2 from `u` to `v` already exists, i.e. some other direct
successor `w` of `u` reaches `v` through down-edges. -/
def AcyclicGraph.TransitiveReduction (g : AcyclicGraph) : AcyclicGraph :=
  let redundant := (Graph.Edges g).filter (fun e =>
    (Set.Values (Graph.downEdgesNoCopy g e.S)).any (fun w =>
      !(w.hash == e.T.hash) &&
        Set.Include
          (walkClosure (fun h => Set.getD g.downEdges h []) (walkFuel g) [w] [])
          e.T.hash))
  redundant.foldl Graph.RemoveEdge g

/-- `Graph.String()` from `graph.go`: the deterministic sorted textual
dump — vertex display names sorted ascending, each followed by its
dependencies (the names of its `downEdges` targets), sorted and indented
by two spaces.  The `mapping[name] = v` map write lets the last vertex
with a given name win. -/
def Graph.StringDump (g : Graph) : String :=
  let vs := Graph.Vertices g
  let names := sortBy strLe (vs.map VertexName)
  String.join (names.map (fun name =>
    match (vs.filter (fun v => VertexName v == name)).getLast? with
    | none => ""
    | some v =>
      let targets := Set.getD g.downEdges v.hash []
      let deps := sortBy strLe ((Set.Values targets).map VertexName)
      name ++ "\n" ++ String.join (deps.map (fun d => "  " ++ d ++ "\n"))))

/-- Modelled from the spec: (`dag.go` is missing from the sources) the loop body of
`SortedReverseDepthFirstWalk`.  The frontier is kept with the Go
slice's *end* at the head (the loop pops from the end).  For each popped
vertex not yet seen (`seen` is a `map[Vertex]struct{}`, Go value
equality): mark it seen, read its up-adjacency from the *live* graph and
append the targets sorted by display name *before* invoking the
callback (the spec's frontier snapshot that makes removal from inside
the callback safe), then visit.  The callback receives and returns the
graph (it may mutate it) and a caller state, plus an optional error that
aborts the walk. -/
def srdfwGo (f : Graph → σ → Vertex → Nat → Graph × σ × Option ε) :
    Nat → Graph → σ → List Vertex → List (Vertex × Nat) →
      Graph × σ × Option ε
  | 0, g, s, _, _ => (g, s, none)
  | _ + 1, g, s, _, [] => (g, s, none)
  | fuel + 1, g, s, seen, current :: rest =>
    if seen.any (fun n => n == current.1) then srdfwGo f fuel g s seen rest
    else
      let seen1 := current.1 :: seen
      let targets := sortBy (fun a b => strLe (VertexName a) (VertexName b))
        (Set.Values (Graph.upEdgesNoCopy g current.1))
      let frontier1 :=
        (targets.map (fun t => (t, current.2 + 1))).reverse ++ rest
      match f g s current.1 current.2 with
      | (g1, s1, some err) => (g1, s1, some err)
      | (g1, s1, none) => srdfwGo f fuel g1 s1 seen1 frontier1

/-- Modelled from the spec: (`dag.go` is missing from the sources) the walk entry point.
`start` enters the frontier at depth 0 (the Go slice pops from its end,
so the reversed-frontier representation reverses `start`).  The fuel
bounds the number of loop iterations and is passed explicitly; every
concrete statement below supplies ample fuel. -/
def AcyclicGraph.SortedReverseDepthFirstWalk
    (g : AcyclicGraph) (start : List Vertex)
    (f : Graph → σ → Vertex → Nat → Graph × σ × Option ε)
    (s : σ) (fuel : Nat) : Graph × σ × Option ε :=
  srdfwGo f fuel g s [] ((start.map (fun v => (v, 0))).reverse)

-- Equality on `Except` values is decidable (to state `Root` results
-- equationally).
deriving instance DecidableEq for Except

/-! ## Invariants -/

/-- Invariant I2: every vertex referenced by any edge is present in the
vertex set. -/
abbrev I2 (g : Graph) : Prop :=
  ∀ e ∈ Graph.Edges g,
    Graph.HasVertex g e.S = true ∧ Graph.HasVertex g e.T = true

/-- A hash key that does not contain the `"-"` separator used by
`basicEdge.Hashcode`. -/
abbrev dashFree (s : String) : Prop := ('-' : Char) ∉ s.data

/-- Well-formedness of the edge set as built by the API: every entry is
stored under its edge's hash code, endpoint hash keys are separator-free,
and keys are unique. -/
def EdgesWF (g : Graph) : Prop :=
  (∀ p ∈ g.edges, p.1 = Edge.Hashcode p.2 ∧
      dashFree p.2.S.hash ∧ dashFree p.2.T.hash) ∧
    (g.edges.map Prod.fst).Nodup

/-- Well-formedness of an adjacency index: separator-free outer keys, and
every inner entry stored under its vertex's hash key, also
separator-free. -/
def AdjWF (m : Set (Set Vertex)) : Prop :=
  ∀ p ∈ m, dashFree p.1 ∧ ∀ q ∈ p.2, q.1 = q.2.hash ∧ dashFree q.2.hash

/-- "The edge (u,v) is present in the edge set", read at the level of
hash keys: some stored edge has source hash `hu` and target hash `hv`. -/
abbrev EdgePairIn (g : Graph) (hu hv : String) : Prop :=
  ∃ e ∈ Graph.Edges g, e.S.hash = hu ∧ e.T.hash = hv

/-- "`v` is in `down[hash(u)]`". -/
abbrev DownHas (g : Graph) (hu hv : String) : Prop :=
  Set.Include (Set.getD g.downEdges hu []) hv = true

/-- "`u` is in `up[hash(v)]`". -/
abbrev UpHas (g : Graph) (hv hu : String) : Prop :=
  Set.Include (Set.getD g.upEdges hv []) hu = true

/-- Invariant I1: an edge (u,v) is present in the edge set iff `v` is in
`down[hash(u)]` iff `u` is in `up[hash(v)]`. -/
def I1 (g : Graph) : Prop :=
  ∀ hu hv, (EdgePairIn g hu hv ↔ DownHas g hu hv) ∧
    (DownHas g hu hv ↔ UpHas g hv hu)

/-- The reachable-state invariant of graphs whose vertex hash keys are
separator-free: structural well-formedness of the three indices together
with invariant I1. -/
def Good (g : Graph) : Prop :=
  EdgesWF g ∧ AdjWF g.downEdges ∧ AdjWF g.upEdges ∧ I1 g

/-- The number of stored edges whose endpoint hash keys are exactly
`(s, t)` — "edges for that (source-key, target-key) pair in `Edges()`". -/
def countPair (g : Graph) (s t : String) : Nat :=
  ((Graph.Edges g).filter (fun e => e.S.hash == s && e.T.hash == t)).length

/-! ## Concrete graphs from the repository's tests -/

/-- The chain `0→1→2→3→4→5` of `TestAcyclicGraphAncestors` /
`TestAcyclicGraphDescendents` (vertex 0 is never `Add`ed, exactly as in
the tests). -/
def chainG : Graph :=
  ((((((((((Graph.empty.Add (myint 1)).Add (myint 2)).Add (myint 3)).Add
    (myint 4)).Add (myint 5)).Connect
    (BasicEdge (myint 0) (myint 1))).Connect
    (BasicEdge (myint 1) (myint 2))).Connect
    (BasicEdge (myint 2) (myint 3))).Connect
    (BasicEdge (myint 3) (myint 4))).Connect
    (BasicEdge (myint 4) (myint 5)))

/-- The graph of `TestAcyclicGraphRoot`: `3→2`, `3→1`. -/
def gRoot : Graph :=
  ((((Graph.empty.Add (myint 1)).Add (myint 2)).Add (myint 3)).Connect
    (BasicEdge (myint 3) (myint 2))).Connect (BasicEdge (myint 3) (myint 1))

/-- The graph of `TestAcyclicGraphRoot_cycle`: the 3-cycle `1→2→3→1`. -/
def gRootCycle : Graph :=
  (((((Graph.empty.Add (myint 1)).Add (myint 2)).Add (myint 3)).Connect
    (BasicEdge (myint 1) (myint 2))).Connect
    (BasicEdge (myint 2) (myint 3))).Connect (BasicEdge (myint 3) (myint 1))

/-- The graph of `TestAcyclicGraphRoot_multiple`: `3→2` with isolated 1. -/
def gRootMulti : Graph :=
  (((Graph.empty.Add (myint 1)).Add (myint 2)).Add (myint 3)).Connect
    (BasicEdge (myint 3) (myint 2))

/-- The graph of `TestAcyclicGraphValidate_cycle`: `3→2`, `3→1`, and the
2-cycle `1⇄2`. -/
def gValCycle : Graph :=
  (gRoot.Connect (BasicEdge (myint 1) (myint 2))).Connect
    (BasicEdge (myint 2) (myint 1))

/-- The graph of `TestAcyclicGraphValidate_cycleSelf`: the self-loop
`1→1`. -/
def gValSelf : Graph :=
  ((Graph.empty.Add (myint 1)).Add (myint 2)).Connect
    (BasicEdge (myint 1) (myint 1))

/-- The graph of `TestAcyclicGraphTransReduction`: `1→2`, `1→3`, `2→3`. -/
def gTR : Graph :=
  (((((Graph.empty.Add (myint 1)).Add (myint 2)).Add (myint 3)).Connect
    (BasicEdge (myint 1) (myint 2))).Connect
    (BasicEdge (myint 1) (myint 3))).Connect (BasicEdge (myint 2) (myint 3))

/-- The chain `3→2→1` of
`TestAcyclicGraph_ReverseDepthFirstWalk_WithRemoval`. -/
def chainW : Graph :=
  ((((Graph.empty.Add (myint 1)).Add (myint 2)).Add (myint 3)).Connect
    (BasicEdge (myint 3) (myint 2))).Connect (BasicEdge (myint 2) (myint 1))

/-- The walk callback of that test: append the visited vertex to the
accumulator and remove it from the graph; never fails. -/
def removeVisitCB (g : Graph) (s : List Vertex) (v : Vertex) (_ : Nat) :
    Graph × List Vertex × Option Unit :=
  (Graph.Remove g v, s ++ [v], none)

/-- The completed walk of that test: start set `{1}`, ample fuel. -/
def walkRes : Graph × List Vertex × Option Unit :=
  AcyclicGraph.SortedReverseDepthFirstWalk chainW [myint 1] removeVisitCB [] 20

/-- A vertex distinct (as a Go value) from `myint 1` but with the same
hash key `"1"`. -/
def dup1 : Vertex := ⟨77, "1", "1"⟩

/-- A graph whose adjacency stores `dup1` while its vertex set stores
`myint 1`: edges `1→2` and `2→dup1`; under hash-key identity this would
be the 2-cycle `1⇄2`. -/
def gC3 : Graph :=
  (((Graph.empty.Add (myint 1)).Add (myint 2)).Connect
    (BasicEdge (myint 1) (myint 2))).Connect (BasicEdge (myint 2) dup1)

/-- Vertices whose hash keys contain or produce the `"-"` separator. -/
def aV : Vertex := ⟨100, "a", "a"⟩

/-- Hash key `"b-c"`. -/
def bcV : Vertex := ⟨101, "b-c", "b-c"⟩

/-- Hash key `"a-b"`. -/
def abV : Vertex := ⟨102, "a-b", "a-b"⟩

/-- Hash key `"c"`. -/
def cV : Vertex := ⟨103, "c", "c"⟩

/-- The edge `("a") → ("b-c")`; its hash code is `"a-b-c"`. -/
def eA : Edge := BasicEdge aV bcV

/-- The edge `("a-b") → ("c")`; its hash code is also `"a-b-c"`. -/
def eB : Edge := BasicEdge abV cV

/-- One `Connect` from empty: a graph satisfying I1. -/
def gX1 : Graph := Graph.empty.Connect eA

/-- The second `Connect` with the colliding edge `eB`. -/
def gX2 : Graph := gX1.Connect eB

/-! ## Lemmas about the keyed set -/

lemma Include_iff (s : Set α) (k : String) :
    Set.Include s k = true ↔ ∃ p ∈ s, p.1 = k := by
  simp [Set.Include, List.any_eq_true, beq_iff_eq]

lemma Include_Add_self (s : Set α) (k : String) (v : α) :
    Set.Include (Set.Add s k v) k = true := by
  rw [Include_iff]
  unfold Set.Add
  split
  case isTrue h =>
    obtain ⟨p, hp, hk⟩ := (Include_iff s k).1 h
    refine ⟨(k, v), List.mem_map.2 ⟨p, hp, ?_⟩, rfl⟩
    simp [hk]
  case isFalse h =>
    exact ⟨(k, v), by simp, rfl⟩

lemma Include_Add_ne (s : Set α) (k k' : String) (v : α) (h : k' ≠ k) :
    Set.Include (Set.Add s k v) k' = Set.Include s k' := by
  unfold Set.Add
  split
  case isTrue hin =>
    simp only [Set.Include, List.any_map]
    congr 1
    funext p
    by_cases hk : p.1 = k <;> simp [hk, Function.comp]
  case isFalse hin =>
    simp only [Set.Include, List.any_append]
    have : ((k, v).1 == k') = false := by
      simp [beq_iff_eq]
      exact fun hkk => h hkk.symm
    simp [this]

lemma mem_Add (s : Set α) (k : String) (v : α) (p : String × α)
    (h : p ∈ Set.Add s k v) : p = (k, v) ∨ p ∈ s := by
  unfold Set.Add at h
  split at h
  case isTrue =>
    obtain ⟨q, hq, hfq⟩ := List.mem_map.1 h
    by_cases hk : q.1 = k
    · simp [hk] at hfq; left; exact hfq.symm
    · simp [hk] at hfq; right; exact hfq ▸ hq
  case isFalse =>
    rcases List.mem_append.1 h with h1 | h1
    · right; exact h1
    · left; simpa using h1

lemma self_mem_Add (s : Set α) (k : String) (v : α) :
    (k, v) ∈ Set.Add s k v := by
  unfold Set.Add
  split
  case isTrue h =>
    obtain ⟨p, hp, hk⟩ := (Include_iff s k).1 h
    exact List.mem_map.2 ⟨p, hp, by simp [hk]⟩
  case isFalse h => simp

lemma mem_Delete (s : Set α) (k : String) (p : String × α) :
    p ∈ Set.Delete s k ↔ p ∈ s ∧ p.1 ≠ k := by
  simp [Set.Delete, List.mem_filter, beq_iff_eq]

lemma Include_Delete_self (s : Set α) (k : String) :
    Set.Include (Set.Delete s k) k = false := by
  by_contra h
  obtain ⟨p, hp, hk⟩ :=
    (Include_iff _ k).1 (Bool.of_not_eq_false h)
  exact ((mem_Delete s k p).1 hp).2 hk

lemma Include_Delete_ne (s : Set α) (k k' : String) (h : k' ≠ k) :
    Set.Include (Set.Delete s k) k' = Set.Include s k' := by
  cases hs : Set.Include s k'
  · by_contra hne
    obtain ⟨p, hp, hk⟩ :=
      (Include_iff _ k').1 (Bool.of_not_eq_false hne)
    have := (Include_iff s k').2 ⟨p, ((mem_Delete s k p).1 hp).1, hk⟩
    rw [hs] at this
    exact Bool.false_ne_true this
  · obtain ⟨p, hp, hk⟩ := (Include_iff s k').1 hs
    exact (Include_iff _ k').2
      ⟨p, (mem_Delete s k p).2 ⟨hp, hk ▸ h⟩, hk⟩

lemma Values_mem (s : Set α) (x : α) :
    x ∈ Set.Values s ↔ ∃ k, (k, x) ∈ s := by
  constructor
  · intro h
    obtain ⟨p, hp, hx⟩ := List.mem_map.1 h
    exact ⟨p.1, by rwa [show (p.1, x) = p from by rw [← hx]]⟩
  · rintro ⟨k, hk⟩
    exact List.mem_map.2 ⟨(k, x), hk, rfl⟩

lemma Include_eq_isSome (s : Set α) (k : String) :
    Set.Include s k = (s.find? (fun p => p.1 == k)).isSome := by
  induction s with
  | nil => rfl
  | cons p t ih =>
    simp only [Set.Include, List.any_cons, List.find?]
    cases h : (p.1 == k) <;> simp [h]
    simpa [Set.Include] using ih

lemma find?_append_none {p : α → Bool} (l₁ l₂ : List α)
    (h : l₁.find? p = none) : (l₁ ++ l₂).find? p = l₂.find? p := by
  induction l₁ with
  | nil => rfl
  | cons a t ih =>
    rw [List.find?_eq_none] at h
    have ha : ¬ (p a = true) := h a (by simp)
    rw [List.cons_append, List.find?_cons_of_neg _ ha]
    exact ih (List.find?_eq_none.2 fun x hx => h x (by simp [hx]))

lemma find?_append_some {p : α → Bool} (l₁ l₂ : List α) (a : α)
    (h : l₁.find? p = some a) : (l₁ ++ l₂).find? p = some a := by
  induction l₁ with
  | nil => simp at h
  | cons b t ih =>
    by_cases hb : p b = true
    · rw [List.find?_cons_of_pos _ hb] at h
      rw [List.cons_append, List.find?_cons_of_pos _ hb]
      exact h
    · rw [List.find?_cons_of_neg _ hb] at h
      rw [List.cons_append, List.find?_cons_of_neg _ hb]
      exact ih h

lemma getD_cons (p : String × α) (t : Set α) (k : String) (d : α) :
    Set.getD (p :: t) k d = if p.1 == k then p.2 else Set.getD t k d := by
  simp only [Set.getD, List.find?]
  cases h : (p.1 == k) <;> simp [h]

lemma Include_cons (p : String × α) (t : Set α) (k : String) :
    Set.Include (p :: t) k = ((p.1 == k) || Set.Include t k) := by
  simp [Set.Include]

lemma getD_of_not_Include (s : Set α) (k : String) (d : α)
    (h : Set.Include s k = false) : Set.getD s k d = d := by
  induction s with
  | nil => rfl
  | cons p t ih =>
    rw [Include_cons] at h
    have h1 : (p.1 == k) = false := by
      cases hc : (p.1 == k) <;> simp [hc] at h ⊢
    have h2 : Set.Include t k = false := by
      cases hc : Set.Include t k <;> simp [hc, h1] at h ⊢
    rw [getD_cons, if_neg (by simp [h1])]
    exact ih h2

lemma getD_append (s₁ s₂ : Set α) (k : String) (d : α) :
    Set.getD (s₁ ++ s₂) k d =
      if Set.Include s₁ k then Set.getD s₁ k d else Set.getD s₂ k d := by
  induction s₁ with
  | nil => simp [Set.Include, Set.getD]
  | cons p t ih =>
    rw [List.cons_append, getD_cons, getD_cons, Include_cons]
    cases h : (p.1 == k)
    · simp only [h, Bool.false_or, if_neg (by simp : ¬ (false = true))]
      rw [ih]
    · simp [h]

lemma getD_mapAt (m : Set (Set Vertex)) (k : String)
    (f : Set Vertex → Set Vertex) :
    Set.getD (m.map (fun p => if p.1 == k then (p.1, f p.2) else p)) k [] =
      if Set.Include m k then f (Set.getD m k []) else [] := by
  induction m with
  | nil => simp [Set.Include, Set.getD]
  | cons p t ih =>
    by_cases h : (p.1 == k) = true
    · rw [List.map_cons, if_pos h, getD_cons,
        if_pos (show ((p.1, f p.2).1 == k) = true from h),
        if_pos (show Set.Include (p :: t) k = true by
          rw [Include_cons, h]; rfl),
        getD_cons, if_pos h]
    · rw [List.map_cons, if_neg h, getD_cons, if_neg h, ih,
        show Set.Include (p :: t) k = Set.Include t k by
          rw [Include_cons, show (p.1 == k) = false by
            cases hc : (p.1 == k)
            · rfl
            · exact absurd hc h]
          rfl]
      by_cases hI : Set.Include t k = true
      · rw [if_pos hI, if_pos hI, getD_cons, if_neg h]
      · rw [if_neg hI, if_neg hI]

lemma getD_mapAt_ne (m : Set (Set Vertex)) (k k' : String) (d : Set Vertex)
    (f : Set Vertex → Set Vertex) (hne : k' ≠ k) :
    Set.getD (m.map (fun p => if p.1 == k then (p.1, f p.2) else p)) k' d =
      Set.getD m k' d := by
  induction m with
  | nil => rfl
  | cons p t ih =>
    by_cases h : (p.1 == k) = true
    · have hk : p.1 = k := by simpa [beq_iff_eq] using h
      have h' : ¬ ((p.1 == k') = true) := by
        simp [beq_iff_eq, hk]
        exact fun he => hne he.symm
      rw [List.map_cons, if_pos h, getD_cons, getD_cons,
        if_neg (show ¬ (((p.1, f p.2).1 == k') = true) from h'),
        if_neg h']
      exact ih
    · rw [List.map_cons, if_neg h, getD_cons, getD_cons]
      by_cases h' : (p.1 == k') = true
      · rw [if_pos h', if_pos h']
      · rw [if_neg h', if_neg h']
        exact ih

lemma getD_adjDeleteFrom_self (m : Set (Set Vertex)) (k dk : String) :
    Set.getD (adjDeleteFrom m k dk) k [] =
      Set.Delete (Set.getD m k []) dk := by
  unfold adjDeleteFrom
  rw [getD_mapAt m k (fun s => Set.Delete s dk)]
  by_cases h : Set.Include m k = true
  · rw [if_pos h]
  · have hf : Set.Include m k = false := by
      cases hc : Set.Include m k
      · rfl
      · exact absurd hc h
    rw [if_neg h, getD_of_not_Include m k [] hf]
    rfl

lemma getD_adjDeleteFrom_ne (m : Set (Set Vertex)) (k k' dk : String)
    (hne : k' ≠ k) :
    Set.getD (adjDeleteFrom m k dk) k' [] = Set.getD m k' [] := by
  unfold adjDeleteFrom
  exact getD_mapAt_ne m k k' [] (fun s => Set.Delete s dk) hne

lemma getD_adjAddTo_self (m : Set (Set Vertex)) (k : String) (v : Vertex) :
    Set.getD (adjAddTo m k v) k [] =
      Set.Add (Set.getD m k []) v.hash v := by
  unfold adjAddTo
  split
  case isTrue h =>
    rw [getD_mapAt m k (fun s => Set.Add s v.hash v), if_pos h]
  case isFalse h =>
    have hf : Set.Include m k = false := by
      cases hc : Set.Include m k
      · rfl
      · exact absurd hc h
    rw [getD_append, if_neg h, getD_cons,
      if_pos (show ((k, Set.Add [] v.hash v).1 == k) = true by simp),
      getD_of_not_Include m k [] hf]

lemma getD_adjAddTo_ne (m : Set (Set Vertex)) (k k' : String) (v : Vertex)
    (hne : k' ≠ k) :
    Set.getD (adjAddTo m k v) k' [] = Set.getD m k' [] := by
  unfold adjAddTo
  split
  case isTrue h =>
    exact getD_mapAt_ne m k k' [] (fun s => Set.Add s v.hash v) hne
  case isFalse h =>
    rw [getD_append]
    by_cases hk' : Set.Include m k' = true
    · rw [if_pos hk']
    · have hf : Set.Include m k' = false := by
        cases hc : Set.Include m k'
        · rfl
        · exact absurd hc hk'
      rw [if_neg hk', getD_cons,
        if_neg (show ¬ (((k, Set.Add [] v.hash v).1 == k') = true) by
          simp [beq_iff_eq]
          exact fun he => hne he.symm),
        getD_of_not_Include m k' [] hf]
      rfl

/-! ## Injectivity of the edge hash code on separator-free keys -/

lemma sep_inj : ∀ (as cs bs ds : List Char), ('-' : Char) ∉ as →
    ('-' : Char) ∉ cs → as ++ '-' :: bs = cs ++ '-' :: ds →
    as = cs ∧ bs = ds := by
  intro as
  induction as with
  | nil =>
    intro cs bs ds _ hc h
    cases cs with
    | nil => simpa using h
    | cons x t =>
      simp only [List.nil_append, List.cons_append, List.cons.injEq] at h
      exact absurd (h.1 ▸ List.mem_cons_self x t) hc
  | cons y t ih =>
    intro cs bs ds ha hc h
    cases cs with
    | nil =>
      simp only [List.nil_append, List.cons_append, List.cons.injEq] at h
      exact absurd (h.1 ▸ List.mem_cons_self y t) ha
    | cons x u =>
      simp only [List.cons_append, List.cons.injEq] at h
      obtain ⟨h1, h2⟩ := h
      have := ih u bs ds (fun hm => ha (List.mem_cons_of_mem y hm))
        (fun hm => hc (List.mem_cons_of_mem x hm)) h2
      exact ⟨by rw [h1, this.1], this.2⟩

lemma hashcode_inj (a b c d : String) (ha : dashFree a) (hc : dashFree c)
    (h : a ++ "-" ++ b = c ++ "-" ++ d) : a = c ∧ b = d := by
  have hd : a.data ++ '-' :: b.data = c.data ++ '-' :: d.data := by
    have := congrArg String.data h
    simpa [String.data_append] using this
  obtain ⟨h1, h2⟩ := sep_inj a.data c.data b.data d.data ha hc hd
  exact ⟨String.ext h1, String.ext h2⟩

lemma EdgeHashcode_inj (e f : Edge) (hs : dashFree e.S.hash)
    (ht : dashFree f.S.hash) (h : Edge.Hashcode e = Edge.Hashcode f) :
    e.S.hash = f.S.hash ∧ e.T.hash = f.T.hash :=
  hashcode_inj _ _ _ _ hs ht h

/-! ## Further set and adjacency lemmas -/

lemma mem_Add_of_ne (s : Set α) (k : String) (v : α) (p : String × α)
    (hp : p ∈ s) (hne : p.1 ≠ k) : p ∈ Set.Add s k v := by
  unfold Set.Add
  split
  case isTrue h =>
    refine List.mem_map.2 ⟨p, hp, ?_⟩
    rw [if_neg (by simp [beq_iff_eq]; exact hne)]
  case isFalse h => exact List.mem_append.2 (Or.inl hp)

lemma keys_Add (s : Set α) (k : String) (v : α) :
    (Set.Add s k v).map Prod.fst =
      if Set.Include s k then s.map Prod.fst else s.map Prod.fst ++ [k] := by
  unfold Set.Add
  split
  case isTrue h =>
    rw [List.map_map]
    apply List.map_congr_left
    intro p _
    by_cases hk : (p.1 == k) = true
    · have : p.1 = k := by simpa [beq_iff_eq] using hk
      simp [hk, this]
    · have hne : ¬ p.1 = k := by simpa [beq_iff_eq] using hk
      simp [hk, hne]
  case isFalse h =>
    simp

lemma NodupKeys_Add (s : Set α) (k : String) (v : α)
    (h : (s.map Prod.fst).Nodup) : ((Set.Add s k v).map Prod.fst).Nodup := by
  rw [keys_Add]
  split
  case isTrue _ => exact h
  case isFalse hin =>
    refine List.Nodup.append h (List.nodup_singleton k) ?_
    intro a ha hb
    rcases List.mem_singleton.1 hb with rfl
    obtain ⟨p, hp, hpk⟩ := List.mem_map.1 ha
    exact hin ((Include_iff s a).2 ⟨p, hp, hpk⟩)

lemma NodupKeys_Delete (s : Set α) (k : String)
    (h : (s.map Prod.fst).Nodup) : ((Set.Delete s k).map Prod.fst).Nodup :=
  List.Nodup.sublist (List.Sublist.map Prod.fst (List.filter_sublist s)) h

lemma mem_Values_Add (s : Set α) (k : String) (v : α) (x : α)
    (h : x ∈ Set.Values (Set.Add s k v)) : x = v ∨ x ∈ Set.Values s := by
  obtain ⟨k', hk'⟩ := (Values_mem _ x).1 h
  rcases mem_Add s k v (k', x) hk' with h1 | h1
  · left; exact congrArg Prod.snd h1
  · right; exact (Values_mem _ x).2 ⟨k', h1⟩

lemma self_mem_Values_Add (s : Set α) (k : String) (v : α) :
    v ∈ Set.Values (Set.Add s k v) :=
  (Values_mem _ v).2 ⟨k, self_mem_Add s k v⟩

lemma mem_Values_Delete (s : Set α) (k : String) (x : α)
    (h : x ∈ Set.Values (Set.Delete s k)) : x ∈ Set.Values s := by
  obtain ⟨k', hk'⟩ := (Values_mem _ x).1 h
  exact (Values_mem _ x).2 ⟨k', ((mem_Delete s k _).1 hk').1⟩

lemma AdjWF_adjAddTo (m : Set (Set Vertex)) (k : String) (v : Vertex)
    (h : AdjWF m) (hk : dashFree k) (hv : dashFree v.hash) :
    AdjWF (adjAddTo m k v) := by
  intro p hp
  unfold adjAddTo at hp
  split at hp
  case isTrue hin =>
    obtain ⟨q, hq, hfq⟩ := List.mem_map.1 hp
    by_cases hqk : (q.1 == k) = true
    · rw [if_pos hqk] at hfq
      subst hfq
      refine ⟨(h q hq).1, ?_⟩
      intro r hr
      rcases mem_Add q.2 v.hash v r hr with h1 | h1
      · subst h1; exact ⟨rfl, hv⟩
      · exact (h q hq).2 r h1
    · rw [if_neg hqk] at hfq
      subst hfq
      exact h q hq
  case isFalse hin =>
    rcases List.mem_append.1 hp with h1 | h1
    · exact h p h1
    · rcases List.mem_singleton.1 h1 with rfl
      refine ⟨hk, ?_⟩
      intro r hr
      rcases mem_Add [] v.hash v r hr with h2 | h2
      · subst h2; exact ⟨rfl, hv⟩
      · simp at h2

lemma AdjWF_adjDeleteFrom (m : Set (Set Vertex)) (k dk : String)
    (h : AdjWF m) : AdjWF (adjDeleteFrom m k dk) := by
  intro p hp
  unfold adjDeleteFrom at hp
  obtain ⟨q, hq, hfq⟩ := List.mem_map.1 hp
  by_cases hqk : (q.1 == k) = true
  · rw [if_pos hqk] at hfq
    subst hfq
    refine ⟨(h q hq).1, ?_⟩
    intro r hr
    exact (h q hq).2 r ((mem_Delete q.2 dk r).1 hr).1
  · rw [if_neg hqk] at hfq
    subst hfq
    exact h q hq

lemma Include_getD_adjAddTo (m : Set (Set Vertex)) (k : String) (v : Vertex)
    (hu hv : String) :
    Set.Include (Set.getD (adjAddTo m k v) hu []) hv = true ↔
      (Set.Include (Set.getD m hu []) hv = true ∨ (hu = k ∧ hv = v.hash)) := by
  by_cases h1 : hu = k
  · subst h1
    rw [getD_adjAddTo_self]
    by_cases h2 : hv = v.hash
    · subst h2; simp [Include_Add_self]
    · rw [Include_Add_ne _ _ _ _ h2]
      simp [h2]
  · rw [getD_adjAddTo_ne _ _ _ _ h1]
    simp [h1]

lemma Include_getD_adjDeleteFrom (m : Set (Set Vertex)) (k dk : String)
    (hu hv : String) :
    Set.Include (Set.getD (adjDeleteFrom m k dk) hu []) hv = true ↔
      (Set.Include (Set.getD m hu []) hv = true ∧ ¬(hu = k ∧ hv = dk)) := by
  by_cases h1 : hu = k
  · subst h1
    rw [getD_adjDeleteFrom_self]
    by_cases h2 : hv = dk
    · subst h2; simp [Include_Delete_self]
    · rw [Include_Delete_ne _ _ _ h2]
      simp [h2]
  · rw [getD_adjDeleteFrom_ne _ _ _ _ h1]
    simp [h1]

/-! ## Preservation of the reachable-state invariant -/

lemma Connect_of_guard_true (g : Graph) (e : Edge)
    (h : DownHas g e.S.hash e.T.hash) : Graph.Connect g e = g := by
  unfold Graph.Connect
  simp only []
  rw [if_pos h]

lemma Connect_of_guard_false (g : Graph) (e : Edge)
    (h : ¬ DownHas g e.S.hash e.T.hash) :
    Graph.Connect g e =
      ⟨g.vertices, Set.Add g.edges (Edge.Hashcode e) e,
        adjAddTo g.downEdges e.S.hash e.T,
        adjAddTo g.upEdges e.T.hash e.S⟩ := by
  unfold Graph.Connect
  simp only []
  rw [if_neg h]

lemma pairIn_Values_Add (s : Set Edge) (e : Edge) (hu hv : String)
    (hWF : ∀ p ∈ s, p.1 = Edge.Hashcode p.2 ∧
      dashFree p.2.S.hash ∧ dashFree p.2.T.hash)
    (hs : dashFree e.S.hash)
    (hnot : ¬ ∃ x ∈ Set.Values s, x.S.hash = e.S.hash ∧ x.T.hash = e.T.hash) :
    (∃ x ∈ Set.Values (Set.Add s (Edge.Hashcode e) e),
        x.S.hash = hu ∧ x.T.hash = hv) ↔
      ((∃ x ∈ Set.Values s, x.S.hash = hu ∧ x.T.hash = hv) ∨
        (hu = e.S.hash ∧ hv = e.T.hash)) := by
  constructor
  · rintro ⟨x, hx, hpx⟩
    rcases mem_Values_Add _ _ _ _ hx with h1 | h1
    · subst h1
      exact Or.inr ⟨hpx.1.symm, hpx.2.symm⟩
    · exact Or.inl ⟨x, h1, hpx⟩
  · rintro (⟨x, hx, hpx⟩ | ⟨h1, h2⟩)
    · obtain ⟨k', hk'⟩ := (Values_mem _ x).1 hx
      have hkey : k' = Edge.Hashcode x := (hWF _ hk').1
      have hne : k' ≠ Edge.Hashcode e := by
        intro heq
        have hinj := hashcode_inj x.S.hash x.T.hash e.S.hash e.T.hash
          (hWF _ hk').2.1 hs (by rw [← Edge.Hashcode, ← Edge.Hashcode, ← hkey, heq])
        exact hnot ⟨x, hx, hinj.1, hinj.2⟩
      exact ⟨x, (Values_mem _ x).2 ⟨k', mem_Add_of_ne s _ e (k', x) hk' hne⟩, hpx⟩
    · exact ⟨e, self_mem_Values_Add s _ e, h1.symm, h2.symm⟩

lemma pairIn_Values_Delete (s : Set Edge) (e : Edge) (hu hv : String)
    (hWF : ∀ p ∈ s, p.1 = Edge.Hashcode p.2 ∧
      dashFree p.2.S.hash ∧ dashFree p.2.T.hash)
    (hs : dashFree e.S.hash) :
    (∃ x ∈ Set.Values (Set.Delete s (Edge.Hashcode e)),
        x.S.hash = hu ∧ x.T.hash = hv) ↔
      ((∃ x ∈ Set.Values s, x.S.hash = hu ∧ x.T.hash = hv) ∧
        ¬ (hu = e.S.hash ∧ hv = e.T.hash)) := by
  constructor
  · rintro ⟨x, hx, hpx⟩
    obtain ⟨k', hk'⟩ := (Values_mem _ x).1 hx
    have hmem := (mem_Delete s _ (k', x)).1 hk'
    have hkey : k' = Edge.Hashcode x := (hWF _ hmem.1).1
    refine ⟨⟨x, (Values_mem _ x).2 ⟨k', hmem.1⟩, hpx⟩, ?_⟩
    rintro ⟨rfl, rfl⟩
    exact hmem.2 (by rw [hkey, Edge.Hashcode, Edge.Hashcode, hpx.1, hpx.2])
  · rintro ⟨⟨x, hx, hpx⟩, hnp⟩
    obtain ⟨k', hk'⟩ := (Values_mem _ x).1 hx
    have hkey : k' = Edge.Hashcode x := (hWF _ hk').1
    have hne : k' ≠ Edge.Hashcode e := by
      intro heq
      have hinj := hashcode_inj x.S.hash x.T.hash e.S.hash e.T.hash
        (hWF _ hk').2.1 hs (by rw [← Edge.Hashcode, ← Edge.Hashcode, ← hkey, heq])
      exact hnp ⟨hpx.1 ▸ hinj.1, hpx.2 ▸ hinj.2⟩
    exact ⟨x, (Values_mem _ x).2
      ⟨k', (mem_Delete s _ (k', x)).2 ⟨hk', hne⟩⟩, hpx⟩

lemma Add_Good (g : Graph) (v : Vertex) (hg : Good g) :
    Good (Graph.Add g v) := hg

lemma Connect_Good (g : Graph) (e : Edge) (hg : Good g)
    (hs : dashFree e.S.hash) (ht : dashFree e.T.hash) :
    Good (Graph.Connect g e) := by
  by_cases hguard : DownHas g e.S.hash e.T.hash
  · rw [Connect_of_guard_true g e hguard]
    exact hg
  · rw [Connect_of_guard_false g e hguard]
    obtain ⟨⟨hWF, hND⟩, hDown, hUp, hI1⟩ := hg
    have hnotPair : ¬ EdgePairIn g e.S.hash e.T.hash :=
      fun hp => hguard ((hI1 _ _).1.1 hp)
    refine ⟨⟨?_, ?_⟩, ?_, ?_, ?_⟩
    · intro p hp
      rcases mem_Add _ _ _ p hp with h1 | h1
      · subst h1
        exact ⟨rfl, hs, ht⟩
      · exact hWF p h1
    · exact NodupKeys_Add _ _ _ hND
    · exact AdjWF_adjAddTo _ _ _ hDown hs ht
    · exact AdjWF_adjAddTo _ _ _ hUp ht hs
    · intro hu hv
      have h1 := (hI1 hu hv).1
      have h2 := (hI1 hu hv).2
      have hPair := pairIn_Values_Add g.edges e hu hv hWF hs hnotPair
      have hDownIff := Include_getD_adjAddTo g.downEdges e.S.hash e.T hu hv
      have hUpIff := Include_getD_adjAddTo g.upEdges e.T.hash e.S hv hu
      constructor
      · exact hPair.trans ((or_congr h1 Iff.rfl).trans hDownIff.symm)
      · exact hDownIff.trans ((or_congr h2 and_comm).trans hUpIff.symm)

lemma RemoveEdge_Good (g : Graph) (e : Edge) (hg : Good g)
    (hs : dashFree e.S.hash) :
    Good (Graph.RemoveEdge g e) := by
  obtain ⟨⟨hWF, hND⟩, hDown, hUp, hI1⟩ := hg
  refine ⟨⟨?_, ?_⟩, ?_, ?_, ?_⟩
  · intro p hp
    exact hWF p ((mem_Delete _ _ p).1 hp).1
  · exact NodupKeys_Delete _ _ hND
  · exact AdjWF_adjDeleteFrom _ _ _ hDown
  · exact AdjWF_adjDeleteFrom _ _ _ hUp
  · intro hu hv
    have h1 := (hI1 hu hv).1
    have h2 := (hI1 hu hv).2
    have hPair := pairIn_Values_Delete g.edges e hu hv hWF hs
    have hDownIff := Include_getD_adjDeleteFrom g.downEdges e.S.hash e.T.hash hu hv
    have hUpIff := Include_getD_adjDeleteFrom g.upEdges e.T.hash e.S.hash hv hu
    constructor
    · exact hPair.trans ((and_congr h1 Iff.rfl).trans hDownIff.symm)
    · exact hDownIff.trans ((and_congr h2 (not_congr and_comm)).trans hUpIff.symm)

lemma foldl_preserve {α : Type} (P : Graph → Prop) (f : Graph → α → Graph) :
    ∀ (l : List α), (∀ g a, a ∈ l → P g → P (f g a)) →
      ∀ g, P g → P (l.foldl f g) := by
  intro l
  induction l with
  | nil => intro _ g hg; exact hg
  | cons a t ih =>
    intro hstep g hg
    exact ih (fun g' b hb => hstep g' b (List.mem_cons_of_mem a hb))
      (f g a) (hstep g a (List.mem_cons_self a t) hg)

lemma dashFree_of_mem_getD (m : Set (Set Vertex)) (k : String)
    (h : AdjWF m) (x : Vertex) (hx : x ∈ Set.Values (Set.getD m k [])) :
    dashFree x.hash := by
  cases hf : m.find? (fun p => p.1 == k)
  case none =>
    rw [Set.getD, hf] at hx
    simp [Set.Values] at hx
  case some p =>
    rw [Set.getD, hf] at hx
    obtain ⟨k', hk'⟩ := (Values_mem _ x).1 hx
    exact ((h p (List.mem_of_find?_eq_some hf)).2 (k', x) hk').2

lemma Remove_Good (g : Graph) (v : Vertex) (hg : Good g)
    (hv : dashFree v.hash) : Good (Graph.Remove g v) := by
  have hg0 : Good {g with vertices := Set.Delete g.vertices v.hash} := hg
  have hg1 : Good ((Set.Values (Graph.downEdgesNoCopy
      {g with vertices := Set.Delete g.vertices v.hash} v)).foldl
      (fun h target => Graph.RemoveEdge h (BasicEdge v target))
      {g with vertices := Set.Delete g.vertices v.hash}) :=
    foldl_preserve Good _ _
      (fun g' a _ hP => RemoveEdge_Good g' (BasicEdge v a) hP hv) _ hg0
  exact foldl_preserve Good _ _
    (fun g' a ha hP => RemoveEdge_Good g' (BasicEdge a v) hP
      (dashFree_of_mem_getD _ v.hash hg1.2.2.1 a ha)) _ hg1

lemma Replace_Good (g : Graph) (o r : Vertex) (hg : Good g)
    (ho : dashFree o.hash) (hr : dashFree r.hash) :
    Good (Graph.Replace g o r).1 := by
  unfold Graph.Replace
  by_cases hmem : Set.Include g.vertices o.hash = true
  · rw [if_neg (show ¬ ((!(Set.Include g.vertices o.hash)) = true) by
      simp [hmem])]
    by_cases heq : o = r
    · rw [if_pos heq]
      exact hg
    · rw [if_neg heq]
      have hg1 : Good (Graph.Add g r) := Add_Good g r hg
      have hg2 : Good ((Set.Values (Graph.downEdgesNoCopy (Graph.Add g r) o)).foldl
          (fun h target => Graph.Connect h (BasicEdge r target))
          (Graph.Add g r)) :=
        foldl_preserve Good _ _
          (fun g' a ha hP => Connect_Good g' (BasicEdge r a) hP hr
            (dashFree_of_mem_getD _ o.hash hg1.2.1 a ha)) _ hg1
      have hg3 : Good ((Set.Values (Graph.upEdgesNoCopy
          ((Set.Values (Graph.downEdgesNoCopy (Graph.Add g r) o)).foldl
            (fun h target => Graph.Connect h (BasicEdge r target))
            (Graph.Add g r)) o)).foldl
          (fun h source => Graph.Connect h (BasicEdge source r))
          ((Set.Values (Graph.downEdgesNoCopy (Graph.Add g r) o)).foldl
            (fun h target => Graph.Connect h (BasicEdge r target))
            (Graph.Add g r))) :=
        foldl_preserve Good _ _
          (fun g' a ha hP => Connect_Good g' (BasicEdge a r) hP
            (dashFree_of_mem_getD _ o.hash hg2.2.2.1 a ha) hr) _ hg2
      exact Remove_Good _ o hg3 ho
  · rw [if_pos (show (!(Set.Include g.vertices o.hash)) = true by
      simp; cases hc : Set.Include g.vertices o.hash
      · rfl
      · exact absurd hc hmem)]
    exact hg

lemma Good_empty : Good Graph.empty := by
  refine ⟨⟨?_, ?_⟩, ?_, ?_, ?_⟩
  · intro p hp
    simp [Graph.empty] at hp
  · simp [Graph.empty]
  · intro p hp
    simp [Graph.empty] at hp
  · intro p hp
    simp [Graph.empty] at hp
  · intro hu hv
    constructor
    · constructor
      · rintro ⟨x, hx, _⟩
        simp [Graph.Edges, Graph.empty, Set.Values] at hx
      · intro hD
        simp [DownHas, Graph.empty, Set.getD, Set.Include] at hD
    · constructor
      · intro hD
        simp [DownHas, Graph.empty, Set.getD, Set.Include] at hD
      · intro hU
        simp [UpHas, Graph.empty, Set.getD, Set.Include] at hU

lemma I1_gX1 : I1 gX1 := by
  have hlit : gX1 = ⟨[], [("a-b-c", eA)], [("a", [("b-c", bcV)])],
      [("b-c", [("a", aV)])]⟩ := by decide
  intro hu hv
  rw [hlit]
  have hDown : Set.Include (Set.getD [("a", [("b-c", bcV)])] hu []) hv = true
      ↔ (hu = "a" ∧ hv = "b-c") := by
    rw [getD_cons]
    by_cases h1 : hu = "a"
    · subst h1
      rw [if_pos (by decide), Include_cons]
      simp only [Set.Include, List.any_nil, Bool.or_false, beq_iff_eq]
      constructor
      · intro h
        exact ⟨trivial, h.symm⟩
      · intro h
        exact h.2.symm
    · have : (("a", [("b-c", bcV)]).1 == hu) = false := by
        simp [beq_iff_eq]
        exact fun he => h1 he.symm
      rw [if_neg (by simp [this])]
      simp [Set.getD, Set.Include, h1]
  have hUp : Set.Include (Set.getD [("b-c", [("a", aV)])] hv []) hu = true
      ↔ (hv = "b-c" ∧ hu = "a") := by
    rw [getD_cons]
    by_cases h1 : hv = "b-c"
    · subst h1
      rw [if_pos (by decide), Include_cons]
      simp only [Set.Include, List.any_nil, Bool.or_false, beq_iff_eq]
      constructor
      · intro h
        exact ⟨trivial, h.symm⟩
      · intro h
        exact h.2.symm
    · have : (("b-c", [("a", aV)]).1 == hv) = false := by
        simp [beq_iff_eq]
        exact fun he => h1 he.symm
      rw [if_neg (by simp [this])]
      simp [Set.getD, Set.Include, h1]
  have hPair : (∃ x ∈ Graph.Edges (⟨[], [("a-b-c", eA)], [("a", [("b-c", bcV)])],
      [("b-c", [("a", aV)])]⟩ : Graph), x.S.hash = hu ∧ x.T.hash = hv)
      ↔ (hu = "a" ∧ hv = "b-c") := by
    simp [Graph.Edges, Set.Values, eA, BasicEdge, aV, bcV, eq_comm]
  exact ⟨hPair.trans hDown.symm, hDown.trans (and_comm.trans hUp.symm)⟩

/-- C4 (counterexample): invariant I1 is *not* preserved by every
mutation.  `gX1` (one `Connect` of the edge `"a"→"b-c"` on the empty
graph) satisfies I1, but connecting the colliding edge `"a-b"→"c"`
(hash code also `"a-b-c"`) overwrites the stored edge object, leaving
`"b-c" ∈ down["a"]` with no stored edge `("a","b-c")`. -/
theorem C4_counterexample : I1 gX1 ∧ ¬ I1 gX2 := by
  refine ⟨I1_gX1, ?_⟩
  intro h
  have h1 := (h "a" "b-c").1
  have hD : DownHas gX2 "a" "b-c" := by decide
  exact absurd (h1.2 hD) (by decide)

/-- C4 (amended): on graphs satisfying the reachable-state invariant
`Good` (structural well-formedness of the three keyed indices together
with I1 — in particular all stored hash keys are free of the `"-"`
separator), every mutation — `Add`, `Remove`, `Connect`, `RemoveEdge`,
`Replace` — preserves `Good`, hence I1, provided the vertices supplied
to the mutation also have separator-free hash keys. -/
theorem C4_amended :
    ∀ g : Graph, Good g →
      (∀ v : Vertex, Good (Graph.Add g v)) ∧
      (∀ v : Vertex, dashFree v.hash → Good (Graph.Remove g v)) ∧
      (∀ e : Edge, dashFree e.S.hash → dashFree e.T.hash →
        Good (Graph.Connect g e) ∧ Good (Graph.RemoveEdge g e)) ∧
      (∀ o r : Vertex, dashFree o.hash → dashFree r.hash →
        Good (Graph.Replace g o r).1) := by
  intro g hg
  exact ⟨fun v => Add_Good g v hg,
    fun v hv => Remove_Good g v hg hv,
    fun e hs ht => ⟨Connect_Good g e hg hs ht, RemoveEdge_Good g e hg hs⟩,
    fun o r ho hr => Replace_Good g o r hg ho hr⟩

/-- C4 (witness): the amended theorem applies to a concrete graph. -/
theorem C4_witness :
    Good (Graph.empty.Connect (BasicEdge (myint 1) (myint 2))) ∧
      Good (Graph.empty.Add (myint 3)) := by
  have h := C4_amended Graph.empty Good_empty
  exact ⟨(h.2.2.1 (BasicEdge (myint 1) (myint 2))
    (by decide) (by decide)).1, h.1 (myint 3)⟩

/-! ## Connect idempotency and the single-edge count -/

lemma Connect_downHas_self (g : Graph) (e : Edge) :
    DownHas (Graph.Connect g e) e.S.hash e.T.hash := by
  by_cases hguard : DownHas g e.S.hash e.T.hash
  · rw [Connect_of_guard_true g e hguard]
    exact hguard
  · rw [Connect_of_guard_false g e hguard]
    show Set.Include (Set.getD (adjAddTo g.downEdges e.S.hash e.T)
      e.S.hash []) e.T.hash = true
    exact (Include_getD_adjAddTo _ _ _ _ _).2 (Or.inr ⟨rfl, rfl⟩)

lemma Connect_idem (g : Graph) (e1 e2 : Edge) (hs : e1.S.hash = e2.S.hash)
    (ht : e1.T.hash = e2.T.hash) :
    Graph.Connect (Graph.Connect g e1) e2 = Graph.Connect g e1 := by
  apply Connect_of_guard_true
  rw [← hs, ← ht]
  exact Connect_downHas_self g e1

lemma count_values_pair (s : Set Edge) (a b : String)
    (hWF : ∀ p ∈ s, p.1 = Edge.Hashcode p.2)
    (hND : (s.map Prod.fst).Nodup)
    (hex : ∃ x ∈ Set.Values s, x.S.hash = a ∧ x.T.hash = b) :
    ((Set.Values s).filter
      (fun e => e.S.hash == a && e.T.hash == b)).length = 1 := by
  induction s with
  | nil => simp [Set.Values] at hex
  | cons p t ih =>
    simp only [Set.Values, List.map_cons] at hex ⊢
    rw [List.map_cons] at hND
    have hND1 := List.nodup_cons.1 hND
    by_cases hp : p.2.S.hash = a ∧ p.2.T.hash = b
    · rw [List.filter_cons_of_pos (by simp [hp.1, hp.2])]
      have htail : (List.filter (fun e => e.S.hash == a && e.T.hash == b)
          (t.map Prod.snd)) = [] := by
        rw [List.filter_eq_nil_iff]
        intro x hx hpx
        have hxp : x.S.hash = a ∧ x.T.hash = b := by
          simpa [Bool.and_eq_true, beq_iff_eq] using hpx
        obtain ⟨k', hk'⟩ := (Values_mem t x).1 hx
        have hkx : k' = Edge.Hashcode x :=
          hWF (k', x) (List.mem_cons_of_mem p hk')
        have hkp : p.1 = Edge.Hashcode p.2 := hWF p (List.mem_cons_self p t)
        have : p.1 = k' := by
          rw [hkp, hkx, Edge.Hashcode, Edge.Hashcode,
            hp.1, hp.2, hxp.1, hxp.2]
        exact hND1.1 (this ▸ List.mem_map.2 ⟨(k', x), hk', rfl⟩)
      rw [htail]
      rfl
    · rw [List.filter_cons_of_neg (by
        simp only [Bool.and_eq_true, beq_iff_eq]
        exact fun hc => hp hc)]
      rcases hex with ⟨x, hx, hpx⟩
      rcases List.mem_cons.1 hx with heq | hx
      · exact absurd (heq ▸ hpx : p.2.S.hash = a ∧ p.2.T.hash = b) hp
      · exact ih (fun q hq => hWF q (List.mem_cons_of_mem p hq)) hND1.2
          ⟨x, hx, hpx⟩

lemma countPair_Connect (g : Graph) (e : Edge) (hg : Good g) :
    countPair (Graph.Connect g e) e.S.hash e.T.hash = 1 := by
  obtain ⟨⟨hWF, hND⟩, _, _, hI1⟩ := hg
  by_cases hguard : DownHas g e.S.hash e.T.hash
  · rw [Connect_of_guard_true g e hguard]
    exact count_values_pair g.edges _ _ (fun p hp => (hWF p hp).1) hND
      ((hI1 e.S.hash e.T.hash).1.2 hguard)
  · rw [Connect_of_guard_false g e hguard]
    refine count_values_pair (Set.Add g.edges (Edge.Hashcode e) e) _ _
      ?_ (NodupKeys_Add _ _ _ hND) ?_
    · intro p hp
      rcases mem_Add _ _ _ p hp with h1 | h1
      · subst h1; rfl
      · exact (hWF p h1).1
    · exact ⟨e, self_mem_Values_Add _ _ e, rfl, rfl⟩

/-- C5 (counterexample): on the reachable graph `gX2` (two `Connect`s
from empty with the colliding edges `"a"→"b-c"` and `"a-b"→"c"`),
connecting the pair (source key `"a"`, target key `"b-c"`) twice leaves
*zero* edges for that pair in `Edges()`, not exactly one: the second
colliding `Connect` had overwritten the stored edge object, and both
later calls are no-ops because `down["a"]` already contains `"b-c"`. -/
theorem C5_counterexample :
    countPair (Graph.Connect (Graph.Connect gX2 eA) eA)
      eA.S.hash eA.T.hash = 0 := by decide

/-- C5 (amended): the second `Connect` of a pair with equal source and
target hash keys has no effect on the graph, for *every* graph; and on
graphs satisfying the reachable-state invariant `Good` (in particular
separator-free hash keys), connecting the pair twice leaves exactly one
edge for that (source-key, target-key) pair in `Edges()`. -/
theorem C5_amended :
    (∀ (g : Graph) (e1 e2 : Edge), e1.S.hash = e2.S.hash →
      e1.T.hash = e2.T.hash →
      Graph.Connect (Graph.Connect g e1) e2 = Graph.Connect g e1) ∧
    (∀ (g : Graph) (e1 e2 : Edge), Good g → e1.S.hash = e2.S.hash →
      e1.T.hash = e2.T.hash →
      countPair (Graph.Connect (Graph.Connect g e1) e2)
        e1.S.hash e1.T.hash = 1) := by
  constructor
  · intro g e1 e2 hs ht
    exact Connect_idem g e1 e2 hs ht
  · intro g e1 e2 hg hs ht
    rw [Connect_idem g e1 e2 hs ht]
    exact countPair_Connect g e1 hg

/-- C5 (witness): both amended conjuncts hold at the concrete edge
`1→2` on the empty graph. -/
theorem C5_witness :
    Graph.Connect (Graph.Connect Graph.empty (BasicEdge (myint 1) (myint 2)))
        (BasicEdge (myint 1) (myint 2)) =
      Graph.Connect Graph.empty (BasicEdge (myint 1) (myint 2)) ∧
    countPair (Graph.Connect (Graph.Connect Graph.empty
        (BasicEdge (myint 1) (myint 2))) (BasicEdge (myint 1) (myint 2)))
      (BasicEdge (myint 1) (myint 2)).S.hash
      (BasicEdge (myint 1) (myint 2)).T.hash = 1 :=
  ⟨C5_amended.1 Graph.empty _ _ rfl rfl,
    C5_amended.2 Graph.empty _ _ Good_empty rfl rfl⟩

/-! ## Claims about the concrete test graphs -/

/-- C1 (counterexample): on the chain `0→1→2→3→4→5`, the program's
`Descendents(2)` does *not* return `{3,4,5}` (it does not even contain
3: it follows the up-edges and returns `{0,1}`), and the program's
`Ancestors(2)` does not return `{0,1}` (it does not contain 0), so the
claim's attribution of directions to the two names is false. -/
theorem C1_counterexample :
    Set.Include (AcyclicGraph.Descendents chainG (myint 2)) "3" = false ∧
    Set.Len (AcyclicGraph.Descendents chainG (myint 2)) ≠ 3 ∧
    Set.Include (AcyclicGraph.Ancestors chainG (myint 2)) "0" = false := by
  decide

/-- C1 (amended): the two names are attached the other way round, as the
repository's tests pin down: on the chain `0→1→2→3→4→5`, `Ancestors(2)`
(which follows forward/out-edges) returns exactly `{3,4,5}` and
`Descendents(2)` (which follows backward/in-edges) returns exactly
`{0,1}`, each excluding vertex 2 itself. -/
theorem C1_amended :
    Set.Len (AcyclicGraph.Ancestors chainG (myint 2)) = 3 ∧
    Set.Include (AcyclicGraph.Ancestors chainG (myint 2)) "3" = true ∧
    Set.Include (AcyclicGraph.Ancestors chainG (myint 2)) "4" = true ∧
    Set.Include (AcyclicGraph.Ancestors chainG (myint 2)) "5" = true ∧
    Set.Include (AcyclicGraph.Ancestors chainG (myint 2)) "2" = false ∧
    Set.Len (AcyclicGraph.Descendents chainG (myint 2)) = 2 ∧
    Set.Include (AcyclicGraph.Descendents chainG (myint 2)) "0" = true ∧
    Set.Include (AcyclicGraph.Descendents chainG (myint 2)) "1" = true ∧
    Set.Include (AcyclicGraph.Descendents chainG (myint 2)) "2" = false := by
  decide

/-- C2 (counterexample): after `Connect(0→1)` on the empty graph the
edge is present but neither endpoint is a member of the vertex set, so
invariant I2 does not hold after every `Connect`; the repository's own
chain test graph (which connects `0→1` without adding 0) violates I2 as
well. -/
theorem C2_counterexample :
    Graph.HasEdge (Graph.empty.Connect (BasicEdge (myint 0) (myint 1)))
      (BasicEdge (myint 0) (myint 1)) = true ∧
    Graph.HasVertex (Graph.empty.Connect (BasicEdge (myint 0) (myint 1)))
      (myint 0) = false ∧
    Graph.HasVertex (Graph.empty.Connect (BasicEdge (myint 0) (myint 1)))
      (myint 1) = false ∧
    ¬ I2 (Graph.empty.Connect (BasicEdge (myint 0) (myint 1))) ∧
    ¬ I2 chainG := by decide

/-- C3 (counterexample): `myint 1` and `dup1` have the same hash key but
are distinct Go values, and the SCC computation treats them as distinct
vertices: on `gC3` (which under hash-key identity would be the 2-cycle
`1⇄2`) it produces *two* components, placing the two hash-`"1"` vertex
objects in different components. -/
theorem C3_counterexample :
    Vertex.Hashcode (myint 1) = Vertex.Hashcode dup1 ∧
    myint 1 ≠ dup1 ∧
    StronglyConnected gC3 = [[dup1, myint 2], [myint 1]] := by decide

/-- C3 (amended): graph membership (`HasVertex`) is decided by hash key
alone, but the SCC engine's accounting (`VertexIndex`, `inStack`)
compares vertex objects by Go value equality, so two distinct vertex
objects with equal hash keys are treated as distinct vertices by
`StronglyConnected`. -/
theorem C3_amended :
    (∀ (g : Graph) (v w : Vertex), v.hash = w.hash →
      Graph.HasVertex g v = Graph.HasVertex g w) ∧
    Graph.HasVertex gC3 dup1 = Graph.HasVertex gC3 (myint 1) ∧
    sccAcct.inStack ⟨2, [(myint 1, 1)], [myint 1], []⟩ dup1 = false ∧
    sccAcct.inStack ⟨2, [(myint 1, 1)], [myint 1], []⟩ (myint 1) = true ∧
    vertexIndexGet [(myint 1, 1)] dup1 = 0 ∧
    vertexIndexGet [(myint 1, 1)] (myint 1) = 1 := by
  refine ⟨?_, by decide, by decide, by decide, by decide, by decide⟩
  intro g v w h
  unfold Graph.HasVertex
  rw [h]

/-- C3 (witness): the hash-key-membership conjunct applies at a
concrete graph and pair of equal-hash vertices. -/
theorem C3_witness :
    (myint 1).hash = dup1.hash ∧
    Graph.HasVertex gC3 (myint 1) = Graph.HasVertex gC3 dup1 :=
  ⟨by decide, C3_amended.1 gC3 (myint 1) dup1 (by decide)⟩

/-- C8: on the graph `{1→2, 1→3, 2→3}` the transitive reduction removes
exactly the edge `1→3`, and the sorted textual dump of the result is
exactly `"1\n  2\n2\n  3\n3\n"`. -/
theorem C8_transitive_reduction :
    Graph.Edges gTR = [BasicEdge (myint 1) (myint 2),
      BasicEdge (myint 1) (myint 3), BasicEdge (myint 2) (myint 3)] ∧
    Graph.Edges (AcyclicGraph.TransitiveReduction gTR) =
      [BasicEdge (myint 1) (myint 2), BasicEdge (myint 2) (myint 3)] ∧
    Graph.StringDump (AcyclicGraph.TransitiveReduction gTR) =
      "1\n  2\n2\n  3\n3\n" := by decide

/-- C9: on the chain `3→2→1`, the sorted reverse depth-first walk
started from `{1}` with a callback that removes each visited vertex
from the graph during its own visit visits exactly `1, 2, 3` in order
and reports no error. -/
theorem C9_walk_with_removal :
    walkRes.2.1 = [myint 1, myint 2, myint 3] ∧ walkRes.2.2 = none := by
  decide

/-- C10: the hash key of a `BasicEdge` is the source hash key, a `"-"`
separator, and the target hash key; consequently the edges
`"a"→"b-c"` and `"a-b"→"c"` have different endpoint pairs but equal
hash keys, so edge identity by hash key is not injective in the
endpoints when vertex hash keys may contain the separator. -/
theorem C10_edge_hashcode :
    (∀ e : Edge, Edge.Hashcode e = e.S.hash ++ "-" ++ e.T.hash) ∧
    Edge.Hashcode eA = Edge.Hashcode eB ∧
    eA.S.hash ≠ eB.S.hash ∧ eA.T.hash ≠ eB.T.hash :=
  ⟨fun _ => rfl, by decide, by decide, by decide⟩

/-- C6: for every graph, `Validate` succeeds (returns the nil error) iff
every strongly connected component is a singleton (components are
nonempty, so length at most one) and no edge is a self-loop; on failure
it reports the offending components and self-loop edges.  In particular
it fails on the test's multi-vertex cycle (naming the component
`{1,2}`) and on the single-vertex self-loop `1→1` (naming that edge),
and succeeds on the acyclic test graph. -/
theorem C6_validate :
    (∀ g : Graph, AcyclicGraph.Validate g = none ↔
      ((∀ c ∈ StronglyConnected g, c.length ≤ 1) ∧
        (∀ e ∈ Graph.Edges g, e.S ≠ e.T))) ∧
    AcyclicGraph.Validate gValCycle = some ⟨[[myint 2, myint 1]], []⟩ ∧
    AcyclicGraph.Validate gValSelf =
      some ⟨[], [BasicEdge (myint 1) (myint 1)]⟩ ∧
    AcyclicGraph.Validate gRoot = none := by
  refine ⟨?_, by decide, by decide, by decide⟩
  intro g
  unfold AcyclicGraph.Validate
  by_cases hc : (((StronglyConnected g).filter (fun c => 1 < c.length)).isEmpty &&
      ((Graph.Edges g).filter (fun e => e.S == e.T)).isEmpty) = true
  · rw [if_pos hc]
    have hc' := hc
    rw [Bool.and_eq_true] at hc'
    obtain ⟨hc1, hc2⟩ := hc'
    have h1 : (StronglyConnected g).filter (fun c => 1 < c.length) = [] := by
      simpa [List.isEmpty_iff] using hc1
    have h2 : (Graph.Edges g).filter (fun e => e.S == e.T) = [] := by
      simpa [List.isEmpty_iff] using hc2
    constructor
    · intro _
      constructor
      · intro c hcm
        by_contra hlen
        have hmem : c ∈ (StronglyConnected g).filter (fun c => 1 < c.length) :=
          List.mem_filter.2 ⟨hcm, by simp [Nat.lt_of_not_le hlen]⟩
        rw [h1] at hmem
        simp at hmem
      · intro e he heq
        have hmem : e ∈ (Graph.Edges g).filter (fun e => e.S == e.T) :=
          List.mem_filter.2 ⟨he, by simp [heq]⟩
        rw [h2] at hmem
        simp at hmem
    · intro _
      rfl
  · rw [if_neg hc]
    constructor
    · intro habs
      simp at habs
    · rintro ⟨hA, hB⟩
      exfalso
      apply hc
      have h1 : (StronglyConnected g).filter (fun c => 1 < c.length) = [] := by
        rw [List.filter_eq_nil_iff]
        intro c hcm
        simp only [decide_eq_true_eq]
        exact Nat.not_lt.2 (hA c hcm)
      have h2 : (Graph.Edges g).filter (fun e => e.S == e.T) = [] := by
        rw [List.filter_eq_nil_iff]
        intro e he
        simp only [beq_iff_eq]
        exact hB e he
      rw [h1, h2]
      rfl

/-- C7: `Root()` returns a vertex iff that vertex is the unique
indegree-0 vertex (`Roots` is exactly the filter of the vertex set on an
empty up-set); it fails iff the number of such vertices is not one, and
the error names the zero ("no root") or many ("multiple roots") case.
Concretely: the test graph `3→2, 3→1` yields root 3; the 3-cycle (no
indegree-0 vertex) and the two-roots graph both fail. -/
theorem C7_root :
    (∀ (g : Graph) (v : Vertex),
      AcyclicGraph.Root g = Except.ok v ↔ AcyclicGraph.Roots g = [v]) ∧
    (∀ (g : Graph) (v : Vertex), v ∈ AcyclicGraph.Roots g ↔
      (v ∈ Graph.Vertices g ∧ Set.Len (Graph.upEdgesNoCopy g v) = 0)) ∧
    (∀ g : Graph, (∃ err, AcyclicGraph.Root g = Except.error err) ↔
      (AcyclicGraph.Roots g).length ≠ 1) ∧
    AcyclicGraph.Root gRoot = Except.ok (myint 3) ∧
    AcyclicGraph.Root gRootCycle = Except.error RootErr.noRoot ∧
    AcyclicGraph.Root gRootMulti = Except.error RootErr.multipleRoots := by
  refine ⟨?_, ?_, ?_, by decide, by decide, by decide⟩
  · intro g v
    unfold AcyclicGraph.Root
    cases h : AcyclicGraph.Roots g with
    | nil => simp
    | cons a t =>
      cases t with
      | nil => simp
      | cons b u => simp
  · intro g v
    unfold AcyclicGraph.Roots
    simp [List.mem_filter]
  · intro g
    unfold AcyclicGraph.Root
    cases h : AcyclicGraph.Roots g with
    | nil => simp
    | cons a t =>
      cases t with
      | nil => simp
      | cons b u => simp

/-! ## Invariant I2: what each operation does to it -/

lemma Connect_vertices (g : Graph) (e : Edge) :
    (Graph.Connect g e).vertices = g.vertices := by
  by_cases h : DownHas g e.S.hash e.T.hash
  · rw [Connect_of_guard_true g e h]
  · rw [Connect_of_guard_false g e h]

lemma Include_Add_mono (s : Set α) (k : String) (v : α) (k' : String)
    (h : Set.Include s k' = true) : Set.Include (Set.Add s k v) k' = true := by
  by_cases hk : k' = k
  · subst hk
    exact Include_Add_self s k' v
  · rw [Include_Add_ne s k k' v hk]
    exact h

lemma I2_Add (g : Graph) (v : Vertex) (hg : I2 g) : I2 (Graph.Add g v) := by
  intro x hx
  have hx' : x ∈ Graph.Edges g := hx
  obtain ⟨h1, h2⟩ := hg x hx'
  exact ⟨Include_Add_mono _ _ _ _ h1, Include_Add_mono _ _ _ _ h2⟩

lemma I2_RemoveEdge (g : Graph) (e : Edge) (hg : I2 g) :
    I2 (Graph.RemoveEdge g e) := by
  intro x hx
  have hx' : x ∈ Set.Values (Set.Delete g.edges (Edge.Hashcode e)) := hx
  exact hg x (mem_Values_Delete _ _ _ hx')

lemma I2_Connect (g : Graph) (e : Edge) (hg : I2 g)
    (hS : Graph.HasVertex g e.S = true) (hT : Graph.HasVertex g e.T = true) :
    I2 (Graph.Connect g e) := by
  by_cases hguard : DownHas g e.S.hash e.T.hash
  · rw [Connect_of_guard_true g e hguard]
    exact hg
  · rw [Connect_of_guard_false g e hguard]
    intro x hx
    have hx' : x ∈ Set.Values (Set.Add g.edges (Edge.Hashcode e) e) := hx
    rcases mem_Values_Add _ _ _ _ hx' with h1 | h1
    · subst h1
      exact ⟨hS, hT⟩
    · exact hg x h1

lemma foldl_RemoveEdge_vertices (l : List Vertex) (mk : Vertex → Edge) :
    ∀ g : Graph,
      (l.foldl (fun h t => Graph.RemoveEdge h (mk t)) g).vertices =
        g.vertices := by
  induction l with
  | nil => intro g; rfl
  | cons a t ih =>
    intro g
    rw [List.foldl_cons, ih]
    rfl

lemma Remove_vertices (g : Graph) (v : Vertex) :
    (Graph.Remove g v).vertices = Set.Delete g.vertices v.hash := by
  show ((Set.Values (Graph.upEdgesNoCopy ((Set.Values (Graph.downEdgesNoCopy
      {g with vertices := Set.Delete g.vertices v.hash} v)).foldl
      (fun h target => Graph.RemoveEdge h (BasicEdge v target))
      {g with vertices := Set.Delete g.vertices v.hash}) v)).foldl
      (fun h source => Graph.RemoveEdge h (BasicEdge source v))
      ((Set.Values (Graph.downEdgesNoCopy
        {g with vertices := Set.Delete g.vertices v.hash} v)).foldl
        (fun h target => Graph.RemoveEdge h (BasicEdge v target))
        {g with vertices := Set.Delete g.vertices v.hash})).vertices =
    Set.Delete g.vertices v.hash
  rw [foldl_RemoveEdge_vertices _ (fun source => BasicEdge source v),
    foldl_RemoveEdge_vertices _ (fun target => BasicEdge v target)]

lemma foldl_RemoveEdge_edges_subset (l : List Vertex) (mk : Vertex → Edge) :
    ∀ (g : Graph) (x : Edge),
      x ∈ Graph.Edges (l.foldl (fun h t => Graph.RemoveEdge h (mk t)) g) →
        x ∈ Graph.Edges g := by
  induction l with
  | nil => intro g x hx; exact hx
  | cons a t ih =>
    intro g x hx
    rw [List.foldl_cons] at hx
    have h1 := ih (Graph.RemoveEdge g (mk a)) x hx
    exact mem_Values_Delete _ _ _ h1

lemma Edges_Remove_subset (g : Graph) (v : Vertex) (x : Edge)
    (hx : x ∈ Graph.Edges (Graph.Remove g v)) : x ∈ Graph.Edges g := by
  have hx2 : x ∈ Graph.Edges ((Set.Values (Graph.downEdgesNoCopy
      {g with vertices := Set.Delete g.vertices v.hash} v)).foldl
      (fun h target => Graph.RemoveEdge h (BasicEdge v target))
      {g with vertices := Set.Delete g.vertices v.hash}) :=
    foldl_RemoveEdge_edges_subset _ (fun source => BasicEdge source v) _ x hx
  have hx3 := foldl_RemoveEdge_edges_subset
    (Set.Values (Graph.downEdgesNoCopy
      {g with vertices := Set.Delete g.vertices v.hash} v))
    (fun target => BasicEdge v target)
    {g with vertices := Set.Delete g.vertices v.hash} x hx2
  exact hx3

lemma foldl_RemoveEdge_edges (l : List Vertex) (mk : Vertex → Edge) :
    ∀ g : Graph,
      (l.foldl (fun h t => Graph.RemoveEdge h (mk t)) g).edges =
        l.foldl (fun es t => Set.Delete es (Edge.Hashcode (mk t))) g.edges := by
  induction l with
  | nil => intro g; rfl
  | cons a t ih =>
    intro g
    rw [List.foldl_cons, List.foldl_cons, ih]
    rfl

lemma Include_foldl_Delete_of_false (l : List Vertex) (keyf : Vertex → String)
    (K : String) :
    ∀ es : Set Edge, Set.Include es K = false →
      Set.Include (l.foldl (fun es x => Set.Delete es (keyf x)) es) K = false := by
  induction l with
  | nil => intro es h; exact h
  | cons a t ih =>
    intro es h
    rw [List.foldl_cons]
    apply ih
    by_cases hk : K = keyf a
    · subst hk
      exact Include_Delete_self _ _
    · rw [Include_Delete_ne _ _ _ hk]
      exact h

lemma foldl_Delete_kills (l : List Vertex) (keyf : Vertex → String)
    (es : Set Edge) (t : Vertex) (ht : t ∈ l) :
    Set.Include (l.foldl (fun es x => Set.Delete es (keyf x)) es)
      (keyf t) = false := by
  obtain ⟨l1, l2, hl⟩ := List.append_of_mem ht
  subst hl
  rw [List.foldl_append, List.foldl_cons]
  exact Include_foldl_Delete_of_false l2 keyf _ _ (Include_Delete_self _ _)

lemma Include_edges_of_mem (g : Graph) (x : Edge)
    (hWF : ∀ p ∈ g.edges, p.1 = Edge.Hashcode p.2)
    (hx : x ∈ Graph.Edges g) :
    Set.Include g.edges (Edge.Hashcode x) = true := by
  obtain ⟨k, hk⟩ := (Values_mem _ x).1 hx
  exact (Include_iff _ _).2 ⟨(k, x), hk, hWF _ hk⟩

lemma exists_value_of_Include_getD (m : Set (Set Vertex)) (k hv : String)
    (hAdj : AdjWF m)
    (h : Set.Include (Set.getD m k []) hv = true) :
    ∃ t ∈ Set.Values (Set.getD m k []), t.hash = hv := by
  obtain ⟨p, hp, hkey⟩ := (Include_iff _ _).1 h
  cases hf : m.find? (fun q => q.1 == k)
  case none =>
    rw [Set.getD, hf] at hp
    simp at hp
  case some q =>
    have hq := hAdj q (List.mem_of_find?_eq_some hf)
    rw [Set.getD, hf] at hp
    have hwf := hq.2 p hp
    refine ⟨p.2, ?_, ?_⟩
    · rw [Set.getD, hf]
      exact (Values_mem _ _).2 ⟨p.1, hp⟩
    · rw [← hwf.1]
      exact hkey

lemma fold1_kills_source (g0 : Graph) (v : Vertex) (hGood : Good g0)
    (hv : dashFree v.hash) :
    ∀ x ∈ Graph.Edges ((Set.Values (Graph.downEdgesNoCopy g0 v)).foldl
      (fun h target => Graph.RemoveEdge h (BasicEdge v target)) g0),
      x.S.hash ≠ v.hash := by
  intro x hx hSx
  have hxg0 : x ∈ Graph.Edges g0 :=
    foldl_RemoveEdge_edges_subset _ (fun target => BasicEdge v target) _ x hx
  have hpair : EdgePairIn g0 v.hash x.T.hash := ⟨x, hxg0, hSx, rfl⟩
  have hdown : DownHas g0 v.hash x.T.hash := (hGood.2.2.2 _ _).1.1 hpair
  obtain ⟨t, htmem, htHash⟩ :=
    exists_value_of_Include_getD g0.downEdges v.hash x.T.hash hGood.2.1 hdown
  have hGood1 : Good ((Set.Values (Graph.downEdgesNoCopy g0 v)).foldl
      (fun h target => Graph.RemoveEdge h (BasicEdge v target)) g0) :=
    foldl_preserve Good _ _
      (fun g' a _ hP => RemoveEdge_Good g' (BasicEdge v a) hP hv) _ hGood
  have hInc := Include_edges_of_mem _ x
    (fun p hp => (hGood1.1.1 p hp).1) hx
  rw [foldl_RemoveEdge_edges _ (fun target => BasicEdge v target)] at hInc
  have hkill := foldl_Delete_kills (Set.Values (Graph.downEdgesNoCopy g0 v))
    (fun tt => Edge.Hashcode (BasicEdge v tt)) g0.edges t htmem
  have hkeq : Edge.Hashcode x = Edge.Hashcode (BasicEdge v t) := by
    show x.S.hash ++ "-" ++ x.T.hash = v.hash ++ "-" ++ t.hash
    rw [hSx, htHash]
  rw [hkeq, hkill] at hInc
  exact Bool.false_ne_true hInc

lemma fold2_kills_target (g1 : Graph) (v : Vertex) (hGood : Good g1)
    (_hv : dashFree v.hash) :
    ∀ x ∈ Graph.Edges ((Set.Values (Graph.upEdgesNoCopy g1 v)).foldl
      (fun h source => Graph.RemoveEdge h (BasicEdge source v)) g1),
      x.T.hash ≠ v.hash := by
  intro x hx hTx
  have hxg1 : x ∈ Graph.Edges g1 :=
    foldl_RemoveEdge_edges_subset _ (fun source => BasicEdge source v) _ x hx
  have hpair : EdgePairIn g1 x.S.hash v.hash := ⟨x, hxg1, rfl, hTx⟩
  have hup : UpHas g1 v.hash x.S.hash :=
    (hGood.2.2.2 _ _).2.1 ((hGood.2.2.2 _ _).1.1 hpair)
  obtain ⟨s, hsmem, hsHash⟩ :=
    exists_value_of_Include_getD g1.upEdges v.hash x.S.hash hGood.2.2.1 hup
  have hGood2 : Good ((Set.Values (Graph.upEdgesNoCopy g1 v)).foldl
      (fun h source => Graph.RemoveEdge h (BasicEdge source v)) g1) :=
    foldl_preserve Good _ _
      (fun g' a ha hP => RemoveEdge_Good g' (BasicEdge a v) hP
        (dashFree_of_mem_getD _ v.hash hGood.2.2.1 a ha)) _ hGood
  have hInc := Include_edges_of_mem _ x
    (fun p hp => (hGood2.1.1 p hp).1) hx
  rw [foldl_RemoveEdge_edges _ (fun source => BasicEdge source v)] at hInc
  have hkill := foldl_Delete_kills (Set.Values (Graph.upEdgesNoCopy g1 v))
    (fun ss => Edge.Hashcode (BasicEdge ss v)) g1.edges s hsmem
  have hkeq : Edge.Hashcode x = Edge.Hashcode (BasicEdge s v) := by
    show x.S.hash ++ "-" ++ x.T.hash = s.hash ++ "-" ++ v.hash
    rw [hTx, hsHash]
  rw [hkeq, hkill] at hInc
  exact Bool.false_ne_true hInc

lemma Remove_kills (g : Graph) (v : Vertex) (hg : Good g)
    (hv : dashFree v.hash) :
    ∀ x ∈ Graph.Edges (Graph.Remove g v),
      x.S.hash ≠ v.hash ∧ x.T.hash ≠ v.hash := by
  intro x hx
  have hGood0 : Good {g with vertices := Set.Delete g.vertices v.hash} := hg
  have hGood1 : Good ((Set.Values (Graph.downEdgesNoCopy
      {g with vertices := Set.Delete g.vertices v.hash} v)).foldl
      (fun h target => Graph.RemoveEdge h (BasicEdge v target))
      {g with vertices := Set.Delete g.vertices v.hash}) :=
    foldl_preserve Good _ _
      (fun g' a _ hP => RemoveEdge_Good g' (BasicEdge v a) hP hv) _ hGood0
  have hx2 : x ∈ Graph.Edges ((Set.Values (Graph.upEdgesNoCopy
      ((Set.Values (Graph.downEdgesNoCopy
        {g with vertices := Set.Delete g.vertices v.hash} v)).foldl
        (fun h target => Graph.RemoveEdge h (BasicEdge v target))
        {g with vertices := Set.Delete g.vertices v.hash}) v)).foldl
      (fun h source => Graph.RemoveEdge h (BasicEdge source v))
      ((Set.Values (Graph.downEdgesNoCopy
        {g with vertices := Set.Delete g.vertices v.hash} v)).foldl
        (fun h target => Graph.RemoveEdge h (BasicEdge v target))
        {g with vertices := Set.Delete g.vertices v.hash})) := hx
  constructor
  · have hx1 : x ∈ Graph.Edges ((Set.Values (Graph.downEdgesNoCopy
        {g with vertices := Set.Delete g.vertices v.hash} v)).foldl
        (fun h target => Graph.RemoveEdge h (BasicEdge v target))
        {g with vertices := Set.Delete g.vertices v.hash}) :=
      foldl_RemoveEdge_edges_subset _ (fun source => BasicEdge source v) _ x hx2
    exact fold1_kills_source _ v hGood0 hv x hx1
  · exact fold2_kills_target _ v hGood1 hv x hx2

lemma I2_Remove (g : Graph) (v : Vertex) (hGood : Good g) (hI2 : I2 g)
    (hv : dashFree v.hash) : I2 (Graph.Remove g v) := by
  intro x hx
  have hkills := Remove_kills g v hGood hv x hx
  have hxg : x ∈ Graph.Edges g := Edges_Remove_subset g v x hx
  obtain ⟨h1, h2⟩ := hI2 x hxg
  have hvert := Remove_vertices g v
  constructor
  · show Set.Include (Graph.Remove g v).vertices x.S.hash = true
    rw [hvert, Include_Delete_ne _ _ _ hkills.1]
    exact h1
  · show Set.Include (Graph.Remove g v).vertices x.T.hash = true
    rw [hvert, Include_Delete_ne _ _ _ hkills.2]
    exact h2

lemma Include_getD_of_mem_value (m : Set (Set Vertex)) (k : String)
    (a : Vertex) (hAdj : AdjWF m)
    (ha : a ∈ Set.Values (Set.getD m k [])) :
    Set.Include (Set.getD m k []) a.hash = true := by
  cases hf : m.find? (fun q => q.1 == k)
  case none =>
    rw [Set.getD, hf] at ha
    simp [Set.Values] at ha
  case some q =>
    have hq := hAdj q (List.mem_of_find?_eq_some hf)
    rw [Set.getD, hf] at ha ⊢
    obtain ⟨k', hk'⟩ := (Values_mem _ a).1 ha
    have hwf := hq.2 (k', a) hk'
    exact (Include_iff _ _).2 ⟨(k', a), hk', hwf.1⟩

lemma HasVertex_of_down_value (gs : Graph) (o : Vertex) (hG : Good gs)
    (hI : I2 gs) :
    ∀ a ∈ Set.Values (Graph.downEdgesNoCopy gs o),
      Graph.HasVertex gs a = true := by
  intro a ha
  have hinc : Set.Include (Set.getD gs.downEdges o.hash []) a.hash = true :=
    Include_getD_of_mem_value gs.downEdges o.hash a hG.2.1 ha
  have hpair : EdgePairIn gs o.hash a.hash := (hG.2.2.2 o.hash a.hash).1.2 hinc
  obtain ⟨x, hxE, _, hxT⟩ := hpair
  have h2 := (hI x hxE).2
  show Set.Include gs.vertices a.hash = true
  rw [← hxT]
  exact h2

lemma HasVertex_of_up_value (gs : Graph) (o : Vertex) (hG : Good gs)
    (hI : I2 gs) :
    ∀ a ∈ Set.Values (Graph.upEdgesNoCopy gs o),
      Graph.HasVertex gs a = true := by
  intro a ha
  have hinc : Set.Include (Set.getD gs.upEdges o.hash []) a.hash = true :=
    Include_getD_of_mem_value gs.upEdges o.hash a hG.2.2.1 ha
  have hdown : DownHas gs a.hash o.hash := (hG.2.2.2 a.hash o.hash).2.2 hinc
  have hpair : EdgePairIn gs a.hash o.hash := (hG.2.2.2 a.hash o.hash).1.2 hdown
  obtain ⟨x, hxE, hxS, _⟩ := hpair
  have h1 := (hI x hxE).1
  show Set.Include gs.vertices a.hash = true
  rw [← hxS]
  exact h1

lemma fold_connect_preserves (mk : Vertex → Edge) (L : List Vertex)
    (g1 : Graph) (hG : Good g1) (hI : I2 g1)
    (hmkS : ∀ a ∈ L, Graph.HasVertex g1 (mk a).S = true ∧ dashFree (mk a).S.hash)
    (hmkT : ∀ a ∈ L, Graph.HasVertex g1 (mk a).T = true ∧ dashFree (mk a).T.hash) :
    Good (L.foldl (fun h t => Graph.Connect h (mk t)) g1) ∧
    I2 (L.foldl (fun h t => Graph.Connect h (mk t)) g1) ∧
    (L.foldl (fun h t => Graph.Connect h (mk t)) g1).vertices = g1.vertices := by
  apply foldl_preserve
    (fun h => Good h ∧ I2 h ∧ h.vertices = g1.vertices)
    (fun h t => Graph.Connect h (mk t)) L
  · intro h a ha hP
    obtain ⟨hhG, hhI, hhV⟩ := hP
    have hS : Graph.HasVertex h (mk a).S = true := by
      show Set.Include h.vertices (mk a).S.hash = true
      rw [hhV]
      exact (hmkS a ha).1
    have hT : Graph.HasVertex h (mk a).T = true := by
      show Set.Include h.vertices (mk a).T.hash = true
      rw [hhV]
      exact (hmkT a ha).1
    refine ⟨Connect_Good h (mk a) hhG (hmkS a ha).2 (hmkT a ha).2,
      I2_Connect h (mk a) hhI hS hT, ?_⟩
    rw [Connect_vertices]
    exact hhV
  · exact ⟨hG, hI, rfl⟩

lemma I2_Replace (g : Graph) (o r : Vertex) (hGood : Good g) (hI2 : I2 g)
    (ho : dashFree o.hash) (hr : dashFree r.hash) :
    I2 (Graph.Replace g o r).1 := by
  unfold Graph.Replace
  by_cases hmem : Set.Include g.vertices o.hash = true
  · rw [if_neg (show ¬ ((!(Set.Include g.vertices o.hash)) = true) by
      simp [hmem])]
    by_cases heq : o = r
    · rw [if_pos heq]
      exact hI2
    · rw [if_neg heq]
      have hg1G : Good (Graph.Add g r) := Add_Good g r hGood
      have hg1I : I2 (Graph.Add g r) := I2_Add g r hI2
      have hg1r : Graph.HasVertex (Graph.Add g r) r = true :=
        Include_Add_self _ _ _
      have h2 := fold_connect_preserves (fun a => BasicEdge r a)
        (Set.Values (Graph.downEdgesNoCopy (Graph.Add g r) o))
        (Graph.Add g r) hg1G hg1I
        (fun a ha => ⟨hg1r, hr⟩)
        (fun a ha => ⟨HasVertex_of_down_value (Graph.Add g r) o hg1G hg1I a ha,
          dashFree_of_mem_getD _ o.hash hg1G.2.1 a ha⟩)
      obtain ⟨hg2G, hg2I, hg2V⟩ := h2
      have hg2r : Graph.HasVertex ((Set.Values (Graph.downEdgesNoCopy
          (Graph.Add g r) o)).foldl
          (fun h t => Graph.Connect h (BasicEdge r t)) (Graph.Add g r))
          r = true := by
        show Set.Include _ r.hash = true
        rw [hg2V]
        exact hg1r
      have h3 := fold_connect_preserves (fun a => BasicEdge a r)
        (Set.Values (Graph.upEdgesNoCopy ((Set.Values (Graph.downEdgesNoCopy
          (Graph.Add g r) o)).foldl
          (fun h t => Graph.Connect h (BasicEdge r t)) (Graph.Add g r)) o))
        ((Set.Values (Graph.downEdgesNoCopy (Graph.Add g r) o)).foldl
          (fun h t => Graph.Connect h (BasicEdge r t)) (Graph.Add g r))
        hg2G hg2I
        (fun a ha => ⟨HasVertex_of_up_value _ o hg2G hg2I a ha,
          dashFree_of_mem_getD _ o.hash hg2G.2.2.1 a ha⟩)
        (fun a ha => ⟨hg2r, hr⟩)
      obtain ⟨hg3G, hg3I, _⟩ := h3
      exact I2_Remove _ o hg3G hg3I ho
  · rw [if_pos (show (!(Set.Include g.vertices o.hash)) = true by
      simp
      cases hc : Set.Include g.vertices o.hash
      · rfl
      · exact absurd hc hmem)]
    exact hI2

/-- C2 (amended): invariant I2 is *not* established by `Connect`, which
leaves the vertex set unchanged and inserts the edge regardless of
endpoint membership.  It is preserved: by `Add` and `RemoveEdge`
unconditionally; by `Connect` when both endpoints of the new edge are
already members; and by `Remove` and `Replace` on graphs satisfying the
reachable-state invariant `Good` (well-formed, separator-free keys),
whose cascading edge deletion and rewiring keep every edge endpoint in
the vertex set. -/
theorem C2_amended :
    (∀ (g : Graph) (e : Edge), (Graph.Connect g e).vertices = g.vertices) ∧
    (∀ (g : Graph) (v : Vertex), I2 g → I2 (Graph.Add g v)) ∧
    (∀ (g : Graph) (e : Edge), I2 g → I2 (Graph.RemoveEdge g e)) ∧
    (∀ (g : Graph) (e : Edge), I2 g → Graph.HasVertex g e.S = true →
      Graph.HasVertex g e.T = true → I2 (Graph.Connect g e)) ∧
    (∀ (g : Graph) (v : Vertex), Good g → I2 g → dashFree v.hash →
      I2 (Graph.Remove g v)) ∧
    (∀ (g : Graph) (o r : Vertex), Good g → I2 g → dashFree o.hash →
      dashFree r.hash → I2 (Graph.Replace g o r).1) :=
  ⟨Connect_vertices, I2_Add, I2_RemoveEdge, I2_Connect,
    fun g v hG hI hv => I2_Remove g v hG hI hv,
    fun g o r hG hI ho hr => I2_Replace g o r hG hI ho hr⟩

/-- C2 (witness): the conditional `Connect` conjunct applies at the
acyclic test graph `3→2, 3→1`, whose endpoints 1 and 2 are members. -/
theorem C2_witness :
    I2 (Graph.Connect gRoot (BasicEdge (myint 1) (myint 2))) :=
  C2_amended.2.2.2.1 gRoot (BasicEdge (myint 1) (myint 2))
    (by decide) (by decide) (by decide)

end Dag
